import Mathlib

/-!
Verification of the multi-account credential bookkeeping logic of the
pi-extensions repository (`usage.ts`, `claude-select.ts`, `codex-select.ts`).

JavaScript objects holding credential entries are modelled as association
lists (`Obj`): the list order is the object's key enumeration order
(string keys in insertion order), `jsGet` is property lookup, `jsSet` is
property assignment (updates in place when the key exists, appends
otherwise, as in JS), `eraseKey` is `delete`.  Machine numbers that the
code only ever uses as integers (epoch milliseconds, HTTP statuses) are
`Int`; percentages and the urgency arithmetic are `Rat`.  `Date.now()` is
an explicit `now` parameter; the `Intl.DateTimeFormat` month/day renderer
is an explicit function parameter `intl`.
-/

namespace PiExt

/-! ### Decimal rendering of `Nat` (`Nat.repr`), and its injectivity

`reorganizeKeys` builds keys with a template literal `prefix-counter`,
so distinctness of the generated keys reduces to injectivity of the
decimal rendering of the counter. -/

/-- Decimal digit list of a natural number (most significant first),
structurally equal to what `Nat.toDigitsCore` produces. -/
def digitsSpec (n : Nat) : List Char :=
  if n < 10 then [Nat.digitChar n]
  else digitsSpec (n / 10) ++ [Nat.digitChar (n % 10)]
termination_by n
decreasing_by
  exact Nat.div_lt_self (by omega) (by omega)

theorem digitsSpec_of_lt {n : Nat} (h : n < 10) :
    digitsSpec n = [Nat.digitChar n] := by
  conv_lhs => rw [digitsSpec]
  rw [if_pos h]

theorem digitsSpec_of_ge {n : Nat} (h : ¬ n < 10) :
    digitsSpec n = digitsSpec (n / 10) ++ [Nat.digitChar (n % 10)] := by
  conv_lhs => rw [digitsSpec]
  rw [if_neg h]

theorem digitsSpec_ne_nil (n : Nat) : digitsSpec n ≠ [] := by
  by_cases h : n < 10
  · rw [digitsSpec_of_lt h]; simp
  · rw [digitsSpec_of_ge h]; simp

theorem toDigitsCore_eq_digitsSpec :
    ∀ (fuel n : Nat) (ds : List Char), n < fuel →
      Nat.toDigitsCore 10 fuel n ds = digitsSpec n ++ ds := by
  intro fuel
  induction fuel with
  | zero => intro n ds h; omega
  | succ fuel ih =>
    intro n ds h
    rw [Nat.toDigitsCore]
    by_cases h10 : n < 10
    · have hz : n / 10 = 0 := Nat.div_eq_of_lt h10
      rw [if_pos hz, digitsSpec_of_lt h10, Nat.mod_eq_of_lt h10]
      simp
    · have hz : ¬ n / 10 = 0 := by
        have := Nat.div_pos (by omega : 10 ≤ n) (by omega)
        omega
      rw [if_neg hz]
      have hlt : n / 10 < fuel := by
        have h1 : n / 10 < n := Nat.div_lt_self (by omega) (by omega)
        omega
      rw [ih (n / 10) (Nat.digitChar (n % 10) :: ds) hlt, digitsSpec_of_ge h10]
      simp

theorem repr_eq_digitsSpec (n : Nat) : Nat.repr n = (digitsSpec n).asString := by
  rw [Nat.repr, Nat.toDigits, toDigitsCore_eq_digitsSpec (n + 1) n [] (by omega)]
  simp

theorem digitChar_inj {a b : Nat} (ha : a < 10) (hb : b < 10)
    (h : Nat.digitChar a = Nat.digitChar b) : a = b := by
  interval_cases a <;> interval_cases b <;> first | rfl | (exfalso; revert h; decide)

theorem digitsSpec_inj (m n : Nat) (h : digitsSpec m = digitsSpec n) : m = n := by
  by_cases hm : m < 10 <;> by_cases hn : n < 10
  · rw [digitsSpec_of_lt hm, digitsSpec_of_lt hn] at h
    simp at h
    exact digitChar_inj hm hn h
  · rw [digitsSpec_of_lt hm, digitsSpec_of_ge hn] at h
    have hnil : digitsSpec (n / 10) = [] := by
      cases hsp : digitsSpec (n / 10) with
      | nil => rfl
      | cons a l => rw [hsp] at h; simp at h
    exact absurd hnil (digitsSpec_ne_nil (n / 10))
  · rw [digitsSpec_of_ge hm, digitsSpec_of_lt hn] at h
    have hnil : digitsSpec (m / 10) = [] := by
      cases hsp : digitsSpec (m / 10) with
      | nil => rfl
      | cons a l => rw [hsp] at h; simp at h
    exact absurd hnil (digitsSpec_ne_nil (m / 10))
  · rw [digitsSpec_of_ge hm, digitsSpec_of_ge hn] at h
    have hp := List.append_inj' h rfl
    have h1 : m / 10 = n / 10 := digitsSpec_inj (m / 10) (n / 10) hp.1
    have h2 : m % 10 = n % 10 := by
      have hc := hp.2
      simp at hc
      exact digitChar_inj (Nat.mod_lt _ (by omega)) (Nat.mod_lt _ (by omega)) hc
    have hm10 := Nat.div_add_mod m 10
    have hn10 := Nat.div_add_mod n 10
    omega
termination_by m
decreasing_by
  exact Nat.div_lt_self (by omega) (by omega)

theorem natRepr_inj {m n : Nat} (h : Nat.repr m = Nat.repr n) : m = n := by
  rw [repr_eq_digitsSpec, repr_eq_digitsSpec] at h
  exact digitsSpec_inj m n (congrArg String.data h)

/-! ### Strings as JS uses them -/

/-- JS `key.startsWith(pre)`: `pre` is a prefix of `key` as a character
sequence. -/
def jsStartsWith (key pre : String) : Bool :=
  pre.data.isPrefixOf key.data

theorem jsStartsWith_iff {key pre : String} :
    jsStartsWith key pre = true ↔ ∃ r, key = pre ++ r := by
  rw [jsStartsWith, List.isPrefixOf_iff_prefix]
  constructor
  · rintro ⟨t, ht⟩
    exact ⟨⟨t⟩, String.ext (by simpa using ht.symm)⟩
  · rintro ⟨r, rfl⟩
    exact ⟨r.data, by simp⟩

theorem jsStartsWith_append (pre r : String) :
    jsStartsWith (pre ++ r) pre = true :=
  jsStartsWith_iff.mpr ⟨r, rfl⟩

theorem append_right_inj {a b c : String} (h : a ++ b = a ++ c) : b = c := by
  have := congrArg String.data h
  simp at this
  exact String.ext this

theorem ne_append_of_data_ne_nil {a b : String} (hb : b.data ≠ []) :
    a ≠ a ++ b := by
  intro h
  have hd : a.data = a.data ++ b.data := by
    conv_lhs => rw [h]
    simp
  have hlen := congrArg List.length hd
  rw [List.length_append] at hlen
  exact hb (List.eq_nil_of_length_eq_zero (by omega))

/-! ### JS objects as ordered association lists

A JS object literal is an ordered mapping; for the (non-index-like)
string keys this code uses, enumeration order is insertion order.
`jsGet` is property read, `jsSet` is property write (in-place update
when the key exists, append otherwise), `eraseKey` is `delete`. -/

/-- One stored credential (`AuthEntry` in `codex-select.ts` /
`claude-select.ts`): `type: "oauth" | "api_key"` plus optional token
material. -/
inductive AuthKind where
  | oauth
  | api_key
deriving DecidableEq

structure AuthEntry where
  kind : AuthKind
  refresh : Option String
  access : Option String
  key : Option String
  expires : Option Int
  accountId : Option String
  email : Option String
deriving DecidableEq

def keysOf {α : Type} (l : List (String × α)) : List String := l.map Prod.fst

def jsGet {α : Type} (k : String) : List (String × α) → Option α
  | [] => none
  | (k', v) :: rest => if k' = k then some v else jsGet k rest

def jsSet {α : Type} (k : String) (v : α) (l : List (String × α)) :
    List (String × α) :=
  if k ∈ keysOf l then l.map (fun p => if p.1 = k then (k, v) else p)
  else l ++ [(k, v)]

def eraseKey {α : Type} (k : String) (l : List (String × α)) :
    List (String × α) :=
  l.filter (fun p => p.1 ≠ k)

theorem keysOf_append {α : Type} (a b : List (String × α)) :
    keysOf (a ++ b) = keysOf a ++ keysOf b := by
  simp [keysOf]

theorem jsGet_append {α : Type} (k : String) (a b : List (String × α)) :
    jsGet k (a ++ b) =
      match jsGet k a with
      | some v => some v
      | none => jsGet k b := by
  induction a with
  | nil => simp [jsGet]
  | cons p rest ih =>
    obtain ⟨k', v⟩ := p
    by_cases h : k' = k <;> simp [jsGet, h, ih]

theorem jsGet_eq_none_of_not_mem {α : Type} {k : String}
    {l : List (String × α)} (h : k ∉ keysOf l) : jsGet k l = none := by
  induction l with
  | nil => rfl
  | cons p rest ih =>
    obtain ⟨k', v⟩ := p
    rw [keysOf, List.map_cons] at h
    rw [List.mem_cons, not_or] at h
    rw [jsGet, if_neg (fun hc => h.1 hc.symm)]
    exact ih h.2

theorem mem_keysOf_of_jsGet {α : Type} {k : String} {v : α}
    {l : List (String × α)} (h : jsGet k l = some v) : k ∈ keysOf l := by
  by_contra hk
  rw [jsGet_eq_none_of_not_mem hk] at h
  exact Option.noConfusion h

theorem jsGet_mem {α : Type} {k : String} {v : α} {l : List (String × α)}
    (h : jsGet k l = some v) : (k, v) ∈ l := by
  induction l with
  | nil => exact Option.noConfusion h
  | cons p rest ih =>
    obtain ⟨k', v'⟩ := p
    by_cases hk : k' = k
    · rw [jsGet, if_pos hk] at h
      exact List.mem_cons.mpr (Or.inl (by cases h; rw [hk]))
    · rw [jsGet, if_neg hk] at h
      exact List.mem_cons.mpr (Or.inr (ih h))

theorem jsGet_of_mem {α : Type} {k : String} {v : α} {l : List (String × α)}
    (hnd : (keysOf l).Nodup) (h : (k, v) ∈ l) : jsGet k l = some v := by
  induction l with
  | nil => simp at h
  | cons p rest ih =>
    obtain ⟨k', v'⟩ := p
    rw [keysOf, List.map_cons, List.nodup_cons] at hnd
    rcases List.mem_cons.mp h with h1 | h1
    · cases h1
      simp [jsGet]
    · have hne : k' ≠ k := by
        intro hk
        exact hnd.1 (hk ▸ (List.mem_map.mpr ⟨(k, v), h1, rfl⟩))
      rw [jsGet, if_neg hne]
      exact ih hnd.2 h1

theorem jsSet_of_not_mem {α : Type} {k : String} (v : α)
    {l : List (String × α)} (h : k ∉ keysOf l) :
    jsSet k v l = l ++ [(k, v)] := by
  rw [jsSet, if_neg h]

theorem jsGet_eraseKey_ne {α : Type} {k k' : String} (h : k ≠ k')
    (l : List (String × α)) : jsGet k (eraseKey k' l) = jsGet k l := by
  induction l with
  | nil => rfl
  | cons p rest ih =>
    obtain ⟨k₀, v⟩ := p
    rw [eraseKey] at ih ⊢
    by_cases h0 : k₀ = k'
    · rw [List.filter_cons_of_neg (by simp [h0])]
      rw [ih, jsGet, if_neg (by rw [h0]; exact fun hc => h hc.symm)]
    · rw [List.filter_cons_of_pos (by simp [h0])]
      by_cases hk : k₀ = k
      · rw [jsGet, jsGet, if_pos hk, if_pos hk]
      · rw [jsGet, jsGet, if_neg hk, if_neg hk, ih]

theorem eraseList_eq_filter {α : Type} :
    ∀ (ks : List String) (l : List (String × α)),
      List.foldl (fun acc k => eraseKey k acc) l ks =
        l.filter (fun p => decide (p.1 ∉ ks)) := by
  intro ks
  induction ks with
  | nil => intro l; simp
  | cons k ks ih =>
    intro l
    rw [List.foldl_cons, ih, eraseKey, List.filter_filter]
    apply List.filter_congr
    intro p _
    by_cases h1 : p.1 = k <;> by_cases h2 : p.1 ∈ ks <;>
      simp [h1, h2, List.mem_cons]

/-! ### Credential-store accessors (`usage.ts`, `claude-select.ts`,
`codex-select.ts`) -/

/-- A credential store (the parsed `auth.json` object). -/
abbrev Obj := List (String × AuthEntry)

/-- JS truthiness of an optional string (absent and `""` are falsy). -/
def struthy : Option String → Bool
  | none => false
  | some s => s != ""

/-- The key test of `usage.ts` (`getAuthEntriesForProvider` and
`reorganizeKeys`): `key === providerPrefix || key.startsWith(providerPrefix + "-")`. -/
def matchesPfx (pfx k : String) : Bool :=
  k == pfx || jsStartsWith k (pfx ++ "-")

/-- From `usage.ts`, `getAuthEntriesForProvider`: all keys of the store that
pass `matchesPfx`, in enumeration order. -/
def getAuthEntriesForProvider (authData : Obj) (pfx : String) : List String :=
  (keysOf authData).filter (fun k => matchesPfx pfx k)

/-- Truthiness of `entry?.access || entry?.key` in `usage.ts`
`getSelectedAuthKey`. -/
def entryUsable : Option AuthEntry → Bool
  | some e => struthy e.access || struthy e.key
  | none => false

/-- From `usage.ts`, `getSelectedAuthKey`. -/
def getSelectedAuthKey (authData : Obj) (pfx : String) : Option String :=
  if entryUsable (jsGet pfx authData) then some pfx
  else (getAuthEntriesForProvider authData pfx).head?

/-- From `claude-select.ts`, `getAnthropicEntries`: entries whose key starts
with `"anthropic"` (plain `startsWith`, no dash required). -/
def getAnthropicEntries (auth : Obj) : Obj :=
  auth.filter (fun p => jsStartsWith p.1 "anthropic")

/-- From `codex-select.ts`, `getCodexEntries`: entries whose key starts with
`"openai-codex"` (plain `startsWith`, no dash required). -/
def getCodexEntries (auth : Obj) : Obj :=
  auth.filter (fun p => jsStartsWith p.1 "openai-codex")

theorem matchesPfx_iff {pfx k : String} :
    matchesPfx pfx k = true ↔ k = pfx ∨ ∃ r, k = pfx ++ "-" ++ r := by
  rw [matchesPfx, Bool.or_eq_true, beq_iff_eq, jsStartsWith_iff]

theorem matchesPfx_self (pfx : String) : matchesPfx pfx pfx = true := by
  rw [matchesPfx, Bool.or_eq_true, beq_iff_eq]
  exact Or.inl rfl

/-- Sample credential entries used for concrete evaluations. -/
def sampleEntry : AuthEntry :=
  ⟨AuthKind.oauth, none, some "tok-a", none, none, none, none⟩

def sampleEntry2 : AuthEntry :=
  ⟨AuthKind.oauth, none, some "tok-b", none, none, none, none⟩

def sampleEntry3 : AuthEntry :=
  ⟨AuthKind.oauth, none, some "tok-c", none, none, none, none⟩

/-- An entry holding only a refresh token: neither `access` nor `key`
is truthy, so it is unusable for selection. -/
def entryRefreshOnly : AuthEntry :=
  ⟨AuthKind.oauth, some "refresh-tok", none, none, none, none, none⟩

/-- C6 (amended): the `usage.ts` accessor returns exactly the keys equal
to the prefix or of the form `prefix ++ "-" ++ rest`, in store enumeration
order; the `claude-select.ts` and `codex-select.ts` accessors instead keep
every key that merely starts with the prefix (so e.g. `"anthropics"` is
also kept), in store enumeration order. -/
theorem entriesForProvider_characterization :
    (∀ (auth : Obj) (pfx k : String),
      k ∈ getAuthEntriesForProvider auth pfx ↔
        k ∈ keysOf auth ∧ (k = pfx ∨ ∃ r, k = pfx ++ "-" ++ r)) ∧
    (∀ (auth : Obj) (pfx : String),
      (getAuthEntriesForProvider auth pfx).Sublist (keysOf auth)) ∧
    (∀ (auth : Obj) (x : String × AuthEntry),
      x ∈ getAnthropicEntries auth ↔
        x ∈ auth ∧ ∃ r, x.1 = "anthropic" ++ r) ∧
    (∀ auth : Obj, (getAnthropicEntries auth).Sublist auth) ∧
    (∀ (auth : Obj) (x : String × AuthEntry),
      x ∈ getCodexEntries auth ↔
        x ∈ auth ∧ ∃ r, x.1 = "openai-codex" ++ r) ∧
    (∀ auth : Obj, (getCodexEntries auth).Sublist auth) := by
  refine ⟨?_, ?_, ?_, ?_, ?_, ?_⟩
  · intro auth pfx k
    rw [getAuthEntriesForProvider, List.mem_filter, matchesPfx_iff]
  · intro auth pfx
    exact List.filter_sublist _
  · intro auth x
    rw [getAnthropicEntries, List.mem_filter, jsStartsWith_iff]
  · intro auth
    exact List.filter_sublist _
  · intro auth x
    rw [getCodexEntries, List.mem_filter, jsStartsWith_iff]
  · intro auth
    exact List.filter_sublist _

/-- C6 witness: concrete evaluation of the characterization. -/
theorem entriesForProvider_characterization_witness :
    "anthropic-1" ∈ keysOf ([("anthropic-1", sampleEntry)] : Obj) ∧
      ("anthropic-1" = "anthropic" ∨ ∃ r, "anthropic-1" = "anthropic" ++ "-" ++ r) :=
  (entriesForProvider_characterization.1 [("anthropic-1", sampleEntry)]
    "anthropic" "anthropic-1").mp (by decide)

/-- C6 counterexample: `getAnthropicEntries` keeps the key
`"anthropics"`, which is neither the prefix `"anthropic"` nor of the
form `"anthropic-..."`; the claim says such a key is not included. -/
theorem anthropicEntries_plain_extension_counterexample :
    getAnthropicEntries [("anthropics", sampleEntry)] =
        [("anthropics", sampleEntry)] ∧
      "anthropics" ≠ "anthropic" ∧
      jsStartsWith "anthropics" ("anthropic" ++ "-") = false := by
  decide

/-- C5 (amended): `getSelectedAuthKey` returns the bare prefix key when
the entry stored under it has a truthy `access` or `key`; otherwise it
returns the first prefix-matching key in object enumeration order — which
may itself be the bare prefix key when that key is present without a
usable credential — and `none` when no entry for the prefix exists. -/
theorem getSelectedAuthKey_characterization :
    ∀ (auth : Obj) (pfx : String),
      (entryUsable (jsGet pfx auth) = true →
        getSelectedAuthKey auth pfx = some pfx) ∧
      (entryUsable (jsGet pfx auth) = false →
        getSelectedAuthKey auth pfx =
          (getAuthEntriesForProvider auth pfx).head?) ∧
      (getAuthEntriesForProvider auth pfx = [] →
        getSelectedAuthKey auth pfx = none) := by
  intro auth pfx
  refine ⟨?_, ?_, ?_⟩
  · intro h
    rw [getSelectedAuthKey, if_pos h]
  · intro h
    rw [getSelectedAuthKey, if_neg (by rw [h]; exact Bool.false_ne_true)]
  · intro h
    have hu : entryUsable (jsGet pfx auth) = false := by
      cases hg : jsGet pfx auth with
      | none => rfl
      | some e =>
        exfalso
        have hk : pfx ∈ keysOf auth := mem_keysOf_of_jsGet hg
        have : pfx ∈ getAuthEntriesForProvider auth pfx := by
          rw [getAuthEntriesForProvider, List.mem_filter]
          exact ⟨hk, matchesPfx_self pfx⟩
        rw [h] at this
        exact List.not_mem_nil pfx this
    rw [getSelectedAuthKey, if_neg (by rw [hu]; exact Bool.false_ne_true), h]
    rfl

/-- C5 witness: concrete application of the characterization. -/
theorem getSelectedAuthKey_characterization_witness :
    getSelectedAuthKey [(("anthropic" : String), sampleEntry)] "anthropic" =
      some "anthropic" :=
  (getSelectedAuthKey_characterization [("anthropic", sampleEntry)]
    "anthropic").1 (by decide)

/-- The store refuting C5: the bare `anthropic` key holds only a refresh
token (no `access`, no `key`), and a numbered usable entry follows it. -/
def storeBareUnusable : Obj :=
  [("anthropic", entryRefreshOnly), ("anthropic-1", sampleEntry)]

/-- C5 counterexample: with the bare key present but unusable,
`getSelectedAuthKey` returns the bare key `"anthropic"` itself, not the
first numbered entry `"anthropic-1"` that the claim promises. -/
theorem getSelectedAuthKey_bare_key_counterexample :
    getSelectedAuthKey storeBareUnusable "anthropic" = some "anthropic" ∧
      jsGet "anthropic" storeBareUnusable = some entryRefreshOnly ∧
      entryRefreshOnly.access = none ∧ entryRefreshOnly.key = none ∧
      getSelectedAuthKey storeBareUnusable "anthropic" ≠ some "anthropic-1" := by
  decide

/-! ### `usage.ts` `reorganizeKeys` -/

/-- A numbered key produced by the template literal
`prefix-counter` in `reorganizeKeys`. -/
def numKey (pfx : String) (c : Nat) : String := pfx ++ "-" ++ Nat.repr c

/-- The entry test of the renumbering loop in `reorganizeKeys`:
`(key === prefix || key.startsWith(prefix + "-")) && key !== selectedKey`. -/
def othersCond (pfx sel : String) (p : String × AuthEntry) : Bool :=
  matchesPfx pfx p.1 && !(p.1 == sel)

/-- Entry-level version of `matchesPfx`. -/
def matchingEntry (pfx : String) (p : String × AuthEntry) : Bool :=
  matchesPfx pfx p.1

/-- Entries whose key does not match the prefix. -/
def notMatching (pfx : String) (p : String × AuthEntry) : Bool :=
  !(matchesPfx pfx p.1)

/-- The renumbering loop of `reorganizeKeys`: walk the original store in
enumeration order and append `prefix-counter` entries for every
prefix-matching key other than the selected one. -/
def reorgLoop (pfx sel : String) :
    Obj → Nat → List (String × AuthEntry) → Obj
  | result, _, [] => result
  | result, c, (k, v) :: rest =>
    if othersCond pfx sel (k, v) then
      reorgLoop pfx sel (jsSet (numKey pfx c) v result) (c + 1) rest
    else
      reorgLoop pfx sel result c rest

/-- From `usage.ts`, `reorganizeKeys(auth, selectedKey, prefix)`: copy the
store, delete every prefix-matching key, re-insert the selected entry
under the bare prefix, then renumber the remaining matching entries from
1 in original enumeration order. -/
def reorganizeKeys (auth : Obj) (selectedKey pfx : String) : Obj :=
  let providerKeys := (keysOf auth).filter (fun k => matchesPfx pfx k)
  let result1 := List.foldl (fun acc k => eraseKey k acc) auth providerKeys
  let result2 :=
    match jsGet selectedKey auth with
    | some selectedAuth => jsSet pfx selectedAuth result1
    | none => result1
  reorgLoop pfx selectedKey result2 1 auth

/-- What the renumbering loop appends: entries keyed
`prefix-c`, `prefix-(c+1)`, ... carrying the given values in order. -/
def numberedFrom (pfx : String) : Nat → List (String × AuthEntry) → Obj
  | _, [] => []
  | c, (_, v) :: rest => (numKey pfx c, v) :: numberedFrom pfx (c + 1) rest

theorem dashRepr_data_ne_nil (c : Nat) :
    (("-" : String) ++ Nat.repr c).data ≠ [] := by
  rw [String.data_append]
  intro h
  have := congrArg List.length h
  rw [List.length_append] at this
  have hd : (("-" : String)).data = ['-'] := rfl
  rw [hd] at this
  simp at this

theorem numKey_ne_pfx (pfx : String) (c : Nat) : numKey pfx c ≠ pfx := by
  rw [numKey, String.append_assoc]
  intro h
  exact ne_append_of_data_ne_nil (dashRepr_data_ne_nil c) h.symm

theorem numKey_inj {pfx : String} {c₁ c₂ : Nat}
    (h : numKey pfx c₁ = numKey pfx c₂) : c₁ = c₂ := by
  rw [numKey, numKey] at h
  exact natRepr_inj (append_right_inj h)

theorem numKey_matches (pfx : String) (c : Nat) :
    matchesPfx pfx (numKey pfx c) = true :=
  matchesPfx_iff.mpr (Or.inr ⟨Nat.repr c, rfl⟩)

theorem keysOf_numberedFrom (pfx : String) :
    ∀ (l : List (String × AuthEntry)) (c : Nat),
      keysOf (numberedFrom pfx c l) =
        (List.range l.length).map (fun i => numKey pfx (c + i)) := by
  intro l
  induction l with
  | nil => intro c; rfl
  | cons p rest ih =>
    intro c
    obtain ⟨k, v⟩ := p
    show numKey pfx c :: keysOf (numberedFrom pfx (c + 1) rest) = _
    rw [ih (c + 1), List.length_cons, List.range_succ_eq_map, List.map_cons,
      List.map_map]
    congr 1
    apply List.map_congr_left
    intro i _
    show numKey pfx (c + 1 + i) = numKey pfx (c + (i + 1))
    congr 1
    omega

theorem snds_numberedFrom (pfx : String) :
    ∀ (l : List (String × AuthEntry)) (c : Nat),
      (numberedFrom pfx c l).map Prod.snd = l.map Prod.snd := by
  intro l
  induction l with
  | nil => intro c; rfl
  | cons p rest ih =>
    intro c
    obtain ⟨k, v⟩ := p
    rw [numberedFrom, List.map_cons, List.map_cons, ih (c + 1)]

theorem mem_keysOf_numberedFrom {pfx k : String}
    {l : List (String × AuthEntry)} {c : Nat}
    (h : k ∈ keysOf (numberedFrom pfx c l)) : ∃ j, k = numKey pfx j := by
  rw [keysOf_numberedFrom] at h
  obtain ⟨i, _, hi⟩ := List.mem_map.mp h
  exact ⟨c + i, hi.symm⟩

theorem reorgLoop_eq (pfx sel : String) :
    ∀ (entries : List (String × AuthEntry)) (result : Obj) (c : Nat),
      (∀ j, c ≤ j → numKey pfx j ∉ keysOf result) →
      reorgLoop pfx sel result c entries =
        result ++ numberedFrom pfx c (entries.filter (othersCond pfx sel)) := by
  intro entries
  induction entries with
  | nil => intro result c _; simp [reorgLoop, numberedFrom]
  | cons p rest ih =>
    intro result c hfresh
    obtain ⟨k, v⟩ := p
    by_cases hc : othersCond pfx sel (k, v) = true
    · rw [reorgLoop, if_pos hc, List.filter_cons_of_pos hc, numberedFrom]
      rw [jsSet_of_not_mem v (hfresh c le_rfl)]
      rw [ih (result ++ [(numKey pfx c, v)]) (c + 1) ?_]
      · rw [List.append_assoc]
        rfl
      · intro j hj hmem
        rw [keysOf_append] at hmem
        rcases List.mem_append.mp hmem with hm | hm
        · exact hfresh j (by omega) hm
        · have hkeq : numKey pfx j = numKey pfx c := by
            rw [keysOf] at hm
            simpa using hm
          have := numKey_inj hkeq
          omega
    · rw [reorgLoop, if_neg hc, List.filter_cons_of_neg hc]
      exact ih result c hfresh

theorem delete_pass_eq (auth : Obj) (pfx : String) :
    List.foldl (fun acc k => eraseKey k acc) auth
        ((keysOf auth).filter (fun k => matchesPfx pfx k)) =
      auth.filter (notMatching pfx) := by
  rw [eraseList_eq_filter]
  apply List.filter_congr
  intro p hp
  have hpk : p.1 ∈ keysOf auth := List.mem_map.mpr ⟨p, hp, rfl⟩
  rw [notMatching]
  by_cases hm : matchesPfx pfx p.1 = true
  · simp [List.mem_filter, hpk, hm]
  · simp [List.mem_filter, hm]

theorem not_matches_of_mem_delete_pass {auth : Obj} {pfx k : String}
    (h : k ∈ keysOf (auth.filter (notMatching pfx))) :
    matchesPfx pfx k = false := by
  rw [keysOf] at h
  obtain ⟨p, hp, rfl⟩ := List.mem_map.mp h
  have := (List.mem_filter.mp hp).2
  rw [notMatching] at this
  simpa using this

/-- Structural closed form of `reorganizeKeys`: the untouched
non-matching entries in their original order, then the selected entry
under the bare prefix, then the other matching entries renumbered from 1
in original enumeration order. -/
theorem reorganizeKeys_eq (auth : Obj) (sel pfx : String) (v : AuthEntry)
    (hget : jsGet sel auth = some v) :
    reorganizeKeys auth sel pfx =
      auth.filter (notMatching pfx) ++
        (pfx, v) :: numberedFrom pfx 1 (auth.filter (othersCond pfx sel)) := by
  rw [reorganizeKeys]
  simp only [delete_pass_eq, hget]
  have hpfx_not_mem : pfx ∉ keysOf (auth.filter (notMatching pfx)) := by
    intro hmem
    have := not_matches_of_mem_delete_pass hmem
    rw [matchesPfx_self pfx] at this
    exact Bool.noConfusion this
  rw [jsSet_of_not_mem v hpfx_not_mem]
  rw [reorgLoop_eq pfx sel auth _ 1 ?_]
  · rw [List.append_assoc]
    rfl
  · intro j _ hmem
    rw [keysOf_append] at hmem
    rcases List.mem_append.mp hmem with hm | hm
    · have := not_matches_of_mem_delete_pass hm
      rw [numKey_matches pfx j] at this
      exact Bool.noConfusion this
    · rw [keysOf] at hm
      simp at hm
      exact numKey_ne_pfx pfx j hm

theorem pfx_not_mem_keysOf_numberedFrom {pfx : String}
    {l : List (String × AuthEntry)} {c : Nat} :
    pfx ∉ keysOf (numberedFrom pfx c l) := by
  intro h
  obtain ⟨j, hj⟩ := mem_keysOf_numberedFrom h
  exact numKey_ne_pfx pfx j hj.symm

theorem filter_matching_delete_pass (auth : Obj) (pfx : String) :
    (auth.filter (notMatching pfx)).filter (matchingEntry pfx) = [] := by
  rw [List.filter_eq_nil_iff]
  intro p hp
  have h2 := (List.mem_filter.mp hp).2
  rw [notMatching] at h2
  rw [matchingEntry]
  simp at h2
  simp [h2]

theorem filter_matching_numberedFrom (pfx : String)
    (l : List (String × AuthEntry)) (c : Nat) :
    (numberedFrom pfx c l).filter (matchingEntry pfx) = numberedFrom pfx c l := by
  rw [List.filter_eq_self]
  intro p hp
  have hk : p.1 ∈ keysOf (numberedFrom pfx c l) := List.mem_map.mpr ⟨p, hp, rfl⟩
  obtain ⟨j, hj⟩ := mem_keysOf_numberedFrom hk
  rw [matchingEntry, hj]
  exact numKey_matches pfx j

/-- The prefix-matching entries of the reorganized store: the selected
entry under the bare prefix followed by the renumbered others. -/
theorem reorganizeKeys_filter_matching (auth : Obj) (sel pfx : String)
    (v : AuthEntry) (hget : jsGet sel auth = some v) :
    (reorganizeKeys auth sel pfx).filter (matchingEntry pfx) =
      (pfx, v) :: numberedFrom pfx 1 (auth.filter (othersCond pfx sel)) := by
  rw [reorganizeKeys_eq auth sel pfx v hget, List.filter_append,
    filter_matching_delete_pass,
    List.filter_cons_of_pos (by rw [matchingEntry]; exact matchesPfx_self pfx),
    filter_matching_numberedFrom]
  rfl

/-- C1: for every store and every prefix-matching `selectedKey` holding
entry `v`, `reorganizeKeys` leaves, among the prefix-matching entries of
the result: exactly the bare-prefix key carrying `v`, followed by the
other formerly-matching entries renumbered `prefix-1`, `prefix-2`, ...
contiguously from 1 (no gaps, no duplicate suffixes), in their original
store enumeration order; the bare prefix occurs exactly once among the
result keys. -/
theorem reorganizeKeys_canonical_renumbering (auth : Obj) (sel pfx : String)
    (v : AuthEntry) (hget : jsGet sel auth = some v)
    (hmat : matchesPfx pfx sel = true) :
    (reorganizeKeys auth sel pfx).filter (matchingEntry pfx) =
        (pfx, v) :: numberedFrom pfx 1 (auth.filter (othersCond pfx sel)) ∧
      (keysOf (reorganizeKeys auth sel pfx)).count pfx = 1 ∧
      keysOf (numberedFrom pfx 1 (auth.filter (othersCond pfx sel))) =
        (List.range (auth.filter (othersCond pfx sel)).length).map
          (fun i => numKey pfx (1 + i)) := by
  have hr := reorganizeKeys_eq auth sel pfx v hget
  refine ⟨reorganizeKeys_filter_matching auth sel pfx v hget, ?_,
    keysOf_numberedFrom pfx _ 1⟩
  rw [hr, keysOf_append, List.count_append]
  have h1 : (keysOf (auth.filter (notMatching pfx))).count pfx = 0 := by
    rw [List.count_eq_zero]
    intro hmem
    have := not_matches_of_mem_delete_pass hmem
    rw [matchesPfx_self pfx] at this
    exact Bool.noConfusion this
  have h2 : keysOf ((pfx, v) :: numberedFrom pfx 1
      (auth.filter (othersCond pfx sel))) =
      pfx :: keysOf (numberedFrom pfx 1 (auth.filter (othersCond pfx sel))) := rfl
  rw [h1, h2, List.count_cons_self,
    List.count_eq_zero.mpr pfx_not_mem_keysOf_numberedFrom]

theorem jsGet_filter_all_pass {P : String × AuthEntry → Bool} {k : String}
    (hP : ∀ w, P (k, w) = true) :
    ∀ l : Obj, jsGet k (l.filter P) = jsGet k l := by
  intro l
  induction l with
  | nil => rfl
  | cons p rest ih =>
    obtain ⟨k₀, w⟩ := p
    by_cases hk : k₀ = k
    · subst hk
      rw [List.filter_cons_of_pos (hP w), jsGet, jsGet, if_pos rfl, if_pos rfl]
    · by_cases hpass : P (k₀, w) = true
      · rw [List.filter_cons_of_pos hpass, jsGet, jsGet, if_neg hk, if_neg hk]
        exact ih
      · rw [List.filter_cons_of_neg hpass, jsGet, if_neg hk]
        exact ih

theorem perm_snd_get_filter :
    ∀ (l : Obj) (sel : String) (v : AuthEntry),
      (keysOf l).Nodup → jsGet sel l = some v →
      List.Perm (l.map Prod.snd)
        (v :: (l.filter (fun p => !(p.1 == sel))).map Prod.snd) := by
  intro l
  induction l with
  | nil => intro sel v _ hget; exact Option.noConfusion hget
  | cons p rest ih =>
    intro sel v hnd hget
    obtain ⟨k, w⟩ := p
    rw [keysOf, List.map_cons, List.nodup_cons] at hnd
    by_cases hk : k = sel
    · subst hk
      rw [jsGet, if_pos rfl] at hget
      cases hget
      rw [List.filter_cons_of_neg (by simp)]
      have hrest : rest.filter (fun p => !(p.1 == k)) = rest := by
        rw [List.filter_eq_self]
        intro p hp
        have hne : p.1 ≠ k := by
          intro hc
          exact hnd.1 (hc ▸ List.mem_map.mpr ⟨p, hp, rfl⟩)
        simp [hne]
      rw [hrest, List.map_cons]
    · rw [jsGet, if_neg hk] at hget
      rw [List.filter_cons_of_pos (by simp; intro hc; exact hk hc)]
      rw [List.map_cons, List.map_cons]
      exact ((ih sel v hnd.2 hget).cons w).trans (List.Perm.swap v w _)

/-- C2: `reorganizeKeys` only renames the prefix-matching keys: the
multiset of their credential-entry values is unchanged (stated as a
permutation of the value lists), and every key that does not match the
prefix looks up to exactly the same value before and after the call. -/
theorem reorganizeKeys_value_preservation (auth : Obj) (sel pfx : String)
    (v : AuthEntry) (hnd : (keysOf auth).Nodup) (hget : jsGet sel auth = some v)
    (hmat : matchesPfx pfx sel = true) :
    List.Perm
        (((reorganizeKeys auth sel pfx).filter (matchingEntry pfx)).map Prod.snd)
        ((auth.filter (matchingEntry pfx)).map Prod.snd) ∧
      ∀ k, matchesPfx pfx k = false →
        jsGet k (reorganizeKeys auth sel pfx) = jsGet k auth := by
  constructor
  · have h1 := reorganizeKeys_filter_matching auth sel pfx v hget
    rw [h1, List.map_cons, snds_numberedFrom]
    have hndm : (keysOf (auth.filter (matchingEntry pfx))).Nodup := by
      refine List.Nodup.sublist ?_ hnd
      exact List.Sublist.map Prod.fst (List.filter_sublist auth)
    have hgetm : jsGet sel (auth.filter (matchingEntry pfx)) = some v := by
      rw [jsGet_filter_all_pass (fun w => by rw [matchingEntry]; exact hmat)]
      exact hget
    have hperm := perm_snd_get_filter (auth.filter (matchingEntry pfx)) sel v hndm hgetm
    have hff : (auth.filter (matchingEntry pfx)).filter (fun p => !(p.1 == sel)) =
        auth.filter (othersCond pfx sel) := by
      rw [List.filter_filter]
      apply List.filter_congr
      intro p _
      rw [othersCond, matchingEntry]
      exact Bool.and_comm ..
    rw [hff] at hperm
    exact hperm.symm
  · intro k hk
    rw [reorganizeKeys_eq auth sel pfx v hget, jsGet_append]
    rw [jsGet_filter_all_pass (P := notMatching pfx)
      (fun w => by rw [notMatching, hk]; rfl)]
    cases hg : jsGet k auth with
    | some w => rfl
    | none =>
      have hne : pfx ≠ k := by
        intro hc
        rw [← hc, matchesPfx_self pfx] at hk
        exact Bool.noConfusion hk
      rw [jsGet, if_neg hne]
      apply jsGet_eq_none_of_not_mem
      intro hmem
      obtain ⟨j, hj⟩ := mem_keysOf_numberedFrom hmem
      rw [hj, numKey_matches pfx j] at hk
      exact Bool.noConfusion hk

/-- The store used for concrete evaluations of the reorganization
theorems: one unrelated entry, a bare `anthropic` entry, and a numbered
entry with a non-contiguous suffix. -/
def storeReorg : Obj :=
  [("other", sampleEntry3), ("anthropic", sampleEntry), ("anthropic-5", sampleEntry2)]

/-- C1 witness: concrete application at `storeReorg`, selecting
`anthropic-5`. -/
theorem reorganizeKeys_canonical_renumbering_witness :
    (keysOf (reorganizeKeys storeReorg "anthropic-5" "anthropic")).count
      "anthropic" = 1 :=
  (reorganizeKeys_canonical_renumbering storeReorg "anthropic-5" "anthropic"
    sampleEntry2 (by decide) (by decide)).2.1

/-- C2 witness: concrete application at `storeReorg`: the unrelated key
`other` is untouched. -/
theorem reorganizeKeys_value_preservation_witness :
    jsGet "other" (reorganizeKeys storeReorg "anthropic-5" "anthropic") =
      jsGet "other" storeReorg :=
  (reorganizeKeys_value_preservation storeReorg "anthropic-5" "anthropic"
    sampleEntry2 (by decide) (by decide) (by decide)).2 "other" (by decide)

/-! ### Urgency scoring (`claude-select.ts` / `codex-select.ts`)

`claude-select.ts` parses `resets_at` date strings with `new Date(...)`;
we model the window carrying the already-parsed epoch-millisecond value
(`Option Int`, `none` when the field is absent or falsy).  `Date.now()`
is the explicit parameter `now`. -/

/-- A usage window of the Anthropic quota payload
(`{ utilization?, resets_at? }`). -/
structure UsageWindow where
  utilization : Option Rat
  resets_at : Option Int
deriving DecidableEq

/-- The Anthropic quota payload (`{ five_hour?, seven_day? }`). -/
structure QuotaInfo where
  five_hour : Option UsageWindow
  seven_day : Option UsageWindow
deriving DecidableEq

/-- From `claude-select.ts`, `getUrgencyScore`: running maximum over the
5-hour window (hours remaining, floored at 0.1) and the 7-day window
(days remaining, floored at 0.1). -/
def getUrgencyScore (now : Int) : Option QuotaInfo → Rat
  | none => 0
  | some quota =>
    let m1 : Rat :=
      match quota.five_hour with
      | some w =>
        match w.utilization, w.resets_at with
        | some u, some r =>
          max 0 (u / max (1 / 10) (((r - now : Int) : Rat) / 3600000))
        | _, _ => 0
      | none => 0
    match quota.seven_day with
    | some w =>
      match w.utilization, w.resets_at with
      | some u, some r =>
        max m1 (u / max (1 / 10) (((r - now : Int) : Rat) / 86400000))
      | _, _ => m1
    | none => m1

/-- A rate-limit window of the Codex usage payload.  `reset_at: 0` is
falsy in JS and is treated by the code exactly like an absent field. -/
structure RateLimitWindow where
  used_percent : Option Rat
  reset_at : Option Int
  limit_window_seconds : Option Int
deriving DecidableEq

structure RateLimit where
  primary_window : Option RateLimitWindow
  secondary_window : Option RateLimitWindow
deriving DecidableEq

structure CreditsInfo where
  balance : Option Rat
deriving DecidableEq

structure CodexUsageData where
  rate_limit : Option RateLimit
  credits : Option CreditsInfo
  plan_type : Option String
deriving DecidableEq

/-- From `codex-select.ts`, `getUrgencyScore`: running maximum over the
primary and secondary windows, both in hours remaining floored at 0.1;
`used_percent || 0` defaults an absent percentage to 0. -/
def getUrgencyScoreCodex (now : Int) (usage : CodexUsageData) : Rat :=
  match usage.rate_limit with
  | none => 0
  | some rl =>
    let m1 : Rat :=
      match rl.primary_window with
      | some pw =>
        match pw.reset_at with
        | some r =>
          if r ≠ 0 then
            max 0 ((pw.used_percent.getD 0) /
              max (1 / 10) (((r - now : Int) : Rat) / 3600000))
          else 0
        | none => 0
      | none => 0
    match rl.secondary_window with
    | some sw =>
      match sw.reset_at with
      | some r =>
        if r ≠ 0 then
          max m1 ((sw.used_percent.getD 0) /
            max (1 / 10) (((r - now : Int) : Rat) / 3600000))
        else m1
      | none => m1
    | none => m1

/-- Spec-side list (from the spec's words) of the urgencies of the rate
windows of a Claude quota that carry both a used-percent and a reset
time: `usedPercent / remaining`, remaining floored at 0.1 units (hours
for the 5-hour window, days for the weekly window). -/
def claudeWindowUrgencies (now : Int) (q : QuotaInfo) : List Rat :=
  (match q.five_hour with
   | some ⟨some u, some r⟩ => [u / max (1 / 10) (((r - now : Int) : Rat) / 3600000)]
   | _ => []) ++
  (match q.seven_day with
   | some ⟨some u, some r⟩ => [u / max (1 / 10) (((r - now : Int) : Rat) / 86400000)]
   | _ => [])

/-- Spec-side list of the urgencies of the Codex rate windows that carry
both a used-percent and a (truthy) reset time, both windows in hours. -/
def codexWindowUrgencies (now : Int) (usage : CodexUsageData) : List Rat :=
  match usage.rate_limit with
  | none => []
  | some rl =>
    (match rl.primary_window with
     | some ⟨some u, some r, _⟩ =>
       if r ≠ 0 then [u / max (1 / 10) (((r - now : Int) : Rat) / 3600000)] else []
     | _ => []) ++
    (match rl.secondary_window with
     | some ⟨some u, some r, _⟩ =>
       if r ≠ 0 then [u / max (1 / 10) (((r - now : Int) : Rat) / 3600000)] else []
     | _ => [])

theorem floor_den_pos (x : Rat) : (0 : Rat) < max (1 / 10) x :=
  lt_of_lt_of_le (by norm_num) (le_max_left _ _)

theorem urgency_claude_eq_foldr (now : Int) (q : QuotaInfo) :
    getUrgencyScore now (some q) =
      (claudeWindowUrgencies now q).foldr max 0 := by
  obtain ⟨fh, sd⟩ := q
  rcases fh with _ | ⟨_ | u1, _ | r1⟩ <;> rcases sd with _ | ⟨_ | u2, _ | r2⟩ <;>
    simp [getUrgencyScore, claudeWindowUrgencies, max_assoc, max_comm,
      max_left_comm, max_self]

theorem urgency_codex_eq_foldr (now : Int) (usage : CodexUsageData) :
    getUrgencyScoreCodex now usage =
      (codexWindowUrgencies now usage).foldr max 0 := by
  obtain ⟨rl, credits, plan⟩ := usage
  rcases rl with _ | ⟨pw, sw⟩
  · simp [getUrgencyScoreCodex, codexWindowUrgencies]
  · rcases pw with _ | ⟨_ | up, _ | rp, lp⟩ <;>
      rcases sw with _ | ⟨_ | us, _ | rs, ls⟩ <;>
      simp only [getUrgencyScoreCodex, codexWindowUrgencies, Option.getD] <;>
      first
        | (split_ifs <;>
            simp [max_assoc, max_comm, max_left_comm, max_self, zero_div])
        | simp [max_assoc, max_comm, max_left_comm, max_self, zero_div]

theorem foldrMax_mem_and_bound :
    ∀ (l : List Rat), (∀ x ∈ l, 0 ≤ x) → l ≠ [] →
      l.foldr max 0 ∈ l ∧ ∀ x ∈ l, x ≤ l.foldr max 0 := by
  intro l
  induction l with
  | nil => intro _ h; exact absurd rfl h
  | cons a l ih =>
    intro hpos _
    cases l with
    | nil =>
      constructor
      · rw [List.foldr_cons, List.foldr_nil,
          max_eq_left (hpos a (List.mem_singleton.mpr rfl))]
        exact List.mem_singleton.mpr rfl
      · intro x hx
        rw [List.mem_singleton] at hx
        subst hx
        exact le_max_left _ _
    | cons b l' =>
      have hne : (b :: l') ≠ [] := by simp
      have hpos' : ∀ x ∈ b :: l', 0 ≤ x :=
        fun x hx => hpos x (List.mem_cons_of_mem a hx)
      obtain ⟨hmem, hbd⟩ := ih hpos' hne
      constructor
      · rw [List.foldr_cons]
        rcases max_choice a ((b :: l').foldr max 0) with hc | hc
        · rw [hc]; exact List.mem_cons_self a _
        · rw [hc]; exact List.mem_cons_of_mem a hmem
      · intro x hx
        rw [List.foldr_cons]
        rcases List.mem_cons.mp hx with hx | hx
        · subst hx; exact le_max_left _ _
        · exact le_trans (hbd x hx) (le_max_right _ _)

/-- C3: each `getUrgencyScore` variant equals the maximum over the rate
windows carrying both a used-percent and a reset time of
`usedPercent / remaining`, the remaining time floored at 0.1 units
(hours for the short windows; days for the weekly window in the Claude
variant), whenever at least one such window exists and the window
urgencies are nonnegative; and a 50%-used window whose reset lies in the
past or within 6 minutes (360000 ms) scores exactly 500.  The score is a
rational number, so it is never an infinity or a NaN. -/
theorem urgencyScore_max_over_windows :
    (∀ (now : Int) (q : QuotaInfo),
      (∀ x ∈ claudeWindowUrgencies now q, 0 ≤ x) →
      claudeWindowUrgencies now q ≠ [] →
      getUrgencyScore now (some q) ∈ claudeWindowUrgencies now q ∧
        ∀ x ∈ claudeWindowUrgencies now q, x ≤ getUrgencyScore now (some q)) ∧
    (∀ (now : Int) (usage : CodexUsageData),
      (∀ x ∈ codexWindowUrgencies now usage, 0 ≤ x) →
      codexWindowUrgencies now usage ≠ [] →
      getUrgencyScoreCodex now usage ∈ codexWindowUrgencies now usage ∧
        ∀ x ∈ codexWindowUrgencies now usage,
          x ≤ getUrgencyScoreCodex now usage) ∧
    (∀ now r : Int, r - now ≤ 360000 →
      getUrgencyScore now
        (some ⟨some ⟨some 50, some r⟩, none⟩) = 500) := by
  refine ⟨?_, ?_, ?_⟩
  · intro now q hpos hne
    rw [urgency_claude_eq_foldr]
    exact foldrMax_mem_and_bound _ hpos hne
  · intro now usage hpos hne
    rw [urgency_codex_eq_foldr]
    exact foldrMax_mem_and_bound _ hpos hne
  · intro now r hr
    show max 0 ((50 : Rat) / max (1 / 10) (((r - now : Int) : Rat) / 3600000)) = 500
    have hle : ((r - now : Int) : Rat) / 3600000 ≤ 1 / 10 := by
      rw [div_le_div_iff₀ (by norm_num) (by norm_num)]
      have : ((r - now : Int) : Rat) ≤ 360000 := by exact_mod_cast hr
      linarith
    rw [max_eq_left hle]
    norm_num

/-- C3 witness: a 5-hour window 50% used whose reset was one minute ago
scores exactly 500. -/
theorem urgencyScore_max_over_windows_witness :
    getUrgencyScore 0 (some ⟨some ⟨some 50, some (-60000)⟩, none⟩) = 500 :=
  urgencyScore_max_over_windows.2.2 0 (-60000) (by decide)

/-! ### Best-account selection (`claude-select.ts` / `codex-select.ts`)

The recommendation loop starts from `bestKey = null`,
`lowestUrgency = Infinity`; `Option Rat` models the lowest-urgency
accumulator, with `none` playing the role of `Infinity` (every real
urgency beats it). -/

/-- The comparison `urgency < lowestUrgency` with `lowestUrgency` initially
`Infinity`. -/
def beatsLowest (u : Rat) : Option Rat → Bool
  | none => true
  | some v => decide (u < v)

/-- The `bestKey` selection loop of `claude-select.ts` (the
`codex-select.ts` loop is identical with its own urgency function):
entries with a `null` snapshot are skipped; every non-null snapshot
participates with its urgency score. -/
def bestFold (now : Int) :
    Option String × Option Rat → List (String × Option QuotaInfo) →
      Option String × Option Rat
  | acc, [] => acc
  | acc, (_, none) :: rest => bestFold now acc rest
  | acc, (k, some q) :: rest =>
    if beatsLowest (getUrgencyScore now (some q)) acc.2 then
      bestFold now (some k, some (getUrgencyScore now (some q))) rest
    else
      bestFold now acc rest

def bestKeyOf (now : Int) (entries : List (String × Option QuotaInfo)) :
    Option String :=
  (bestFold now (none, none) entries).1

theorem bestFold_spec (now : Int) :
    ∀ (entries : List (String × Option QuotaInfo)) (bk : Option String)
      (lu : Option Rat),
      (bestFold now (bk, lu) entries = (bk, lu) ∧
        ∀ k q, (k, some q) ∈ entries →
          beatsLowest (getUrgencyScore now (some q)) lu = false) ∨
      (∃ k q, (k, some q) ∈ entries ∧
        bestFold now (bk, lu) entries =
          (some k, some (getUrgencyScore now (some q))) ∧
        beatsLowest (getUrgencyScore now (some q)) lu = true ∧
        ∀ k' q', (k', some q') ∈ entries →
          getUrgencyScore now (some q) ≤ getUrgencyScore now (some q')) := by
  intro entries
  induction entries with
  | nil =>
    intro bk lu
    exact Or.inl ⟨rfl, fun k q h => absurd h (List.not_mem_nil _)⟩
  | cons p rest ih =>
    intro bk lu
    obtain ⟨k, oq⟩ := p
    cases oq with
    | none =>
      rcases ih bk lu with ⟨heq, hall⟩ | ⟨k₂, q₂, hmem, heq, hbeat, hbd⟩
      · refine Or.inl ⟨heq, ?_⟩
        intro k' q' h'
        rcases List.mem_cons.mp h' with h' | h'
        · exact absurd (congrArg Prod.snd h') (by simp)
        · exact hall k' q' h'
      · refine Or.inr ⟨k₂, q₂, List.mem_cons_of_mem _ hmem, heq, hbeat, ?_⟩
        intro k' q' h'
        rcases List.mem_cons.mp h' with h' | h'
        · exact absurd (congrArg Prod.snd h') (by simp)
        · exact hbd k' q' h'
    | some q =>
      by_cases hb : beatsLowest (getUrgencyScore now (some q)) lu = true
      · rw [show bestFold now (bk, lu) ((k, some q) :: rest) =
            bestFold now (some k, some (getUrgencyScore now (some q))) rest
            from by rw [bestFold, if_pos hb]]
        rcases ih (some k) (some (getUrgencyScore now (some q))) with
          ⟨heq, hall⟩ | ⟨k₂, q₂, hmem, heq, hbeat, hbd⟩
        · refine Or.inr ⟨k, q, List.mem_cons_self _ _, heq, hb, ?_⟩
          intro k' q' h'
          rcases List.mem_cons.mp h' with h' | h'
          · cases h'
            exact le_refl _
          · have := hall k' q' h'
            rw [beatsLowest] at this
            have hnotlt := of_decide_eq_false this
            exact le_of_not_lt hnotlt
        · have hlt : getUrgencyScore now (some q₂) < getUrgencyScore now (some q) := by
            rw [beatsLowest] at hbeat
            exact of_decide_eq_true hbeat
          refine Or.inr ⟨k₂, q₂, List.mem_cons_of_mem _ hmem, heq, ?_, ?_⟩
          · cases lu with
            | none => rfl
            | some v =>
              rw [beatsLowest] at hb ⊢
              have := of_decide_eq_true hb
              exact decide_eq_true (lt_trans hlt this)
          · intro k' q' h'
            rcases List.mem_cons.mp h' with h' | h'
            · cases h'
              exact le_of_lt hlt
            · exact hbd k' q' h'
      · rw [show bestFold now (bk, lu) ((k, some q) :: rest) =
            bestFold now (bk, lu) rest
            from by rw [bestFold, if_neg hb]]
        have hbf : beatsLowest (getUrgencyScore now (some q)) lu = false :=
          Bool.eq_false_iff.mpr hb
        rcases ih bk lu with ⟨heq, hall⟩ | ⟨k₂, q₂, hmem, heq, hbeat, hbd⟩
        · refine Or.inl ⟨heq, ?_⟩
          intro k' q' h'
          rcases List.mem_cons.mp h' with h' | h'
          · obtain ⟨rfl, hq⟩ := Prod.mk.injEq .. ▸ h'
            cases hq
            exact hbf
          · exact hall k' q' h'
        · refine Or.inr ⟨k₂, q₂, List.mem_cons_of_mem _ hmem, heq, hbeat, ?_⟩
          intro k' q' h'
          rcases List.mem_cons.mp h' with h' | h'
          · obtain ⟨rfl, hq⟩ := Prod.mk.injEq .. ▸ h'
            cases hq
            cases lu with
            | none => exact absurd hbf (by rw [beatsLowest]; simp)
            | some v =>
              rw [beatsLowest] at hbf hbeat
              have h2 := of_decide_eq_false hbf
              have h3 := of_decide_eq_true hbeat
              have := le_of_not_lt h2
              exact le_trans (le_of_lt h3) this
          · exact hbd k' q' h'

/-- C4 (amended): in the recommendation loop, entries whose snapshot is
`null` are excluded from the comparison entirely (a `bestKey` is only
ever a key carrying a non-null snapshot, and no recommendation is made
when every snapshot is null); every non-null entry participates with its
urgency score — a snapshot with no scorable window participates with
urgency 0, the minimum possible, so it can be selected — and the
selected key carries a minimal urgency among the non-null entries. -/
theorem bestKey_characterization (now : Int)
    (entries : List (String × Option QuotaInfo)) :
    (bestKeyOf now entries = none ↔ ∀ k q, (k, some q) ∉ entries) ∧
      (∀ k, bestKeyOf now entries = some k →
        ∃ q, (k, some q) ∈ entries ∧
          ∀ k' q', (k', some q') ∈ entries →
            getUrgencyScore now (some q) ≤ getUrgencyScore now (some q')) := by
  constructor
  · constructor
    · intro hnone k q hmem
      rcases bestFold_spec now entries none none with ⟨_, hall⟩ | ⟨k₂, q₂, _, heq, _, _⟩
      · have := hall k q hmem
        rw [beatsLowest] at this
        exact Bool.noConfusion this
      · rw [bestKeyOf, heq] at hnone
        exact Option.noConfusion hnone
    · intro hno
      rcases bestFold_spec now entries none none with ⟨heq, _⟩ | ⟨k₂, q₂, hmem, _, _, _⟩
      · rw [bestKeyOf, heq]
      · exact absurd hmem (hno k₂ q₂)
  · intro k hk
    rcases bestFold_spec now entries none none with ⟨heq, _⟩ | ⟨k₂, q₂, hmem, heq, _, hbd⟩
    · rw [bestKeyOf, heq] at hk
      exact Option.noConfusion hk
    · rw [bestKeyOf, heq] at hk
      cases hk
      exact ⟨q₂, hmem, hbd⟩

/-- A quota payload with no rate windows at all. -/
def quotaNoWindows : QuotaInfo := ⟨none, none⟩

/-- A quota payload 50% used with a reset one hour after epoch. -/
def quotaHalfUsed : QuotaInfo := ⟨some ⟨some 50, some 3600000⟩, none⟩

/-- The map refuting C4: entry `a` has a non-null snapshot with no
windows, entry `b` has a non-null snapshot with positive urgency. -/
def entriesWindowless : List (String × Option QuotaInfo) :=
  [("a", some quotaNoWindows), ("b", some quotaHalfUsed)]

/-- C4 counterexample: the windowless non-null entry `a` scores 0 and IS
selected as `bestKey`, beating the entry with a scorable window; the
claim states such an entry is never selected. -/
theorem bestKey_windowless_counterexample :
    bestKeyOf 0 entriesWindowless = some "a" ∧
      quotaNoWindows.five_hour = none ∧ quotaNoWindows.seven_day = none ∧
      getUrgencyScore 0 (some quotaNoWindows) = 0 ∧
      getUrgencyScore 0 (some quotaHalfUsed) = 50 := by
  norm_num [bestKeyOf, bestFold, entriesWindowless, beatsLowest,
    getUrgencyScore, quotaNoWindows, quotaHalfUsed, max_def]

/-- C4 witness: concrete application of the characterization — the
selected key of `entriesWindowless` carries a non-null snapshot of
minimal urgency. -/
theorem bestKey_characterization_witness :
    ∃ q, ("a", some q) ∈ entriesWindowless ∧
      ∀ k' q', (k', some q') ∈ entriesWindowless →
        getUrgencyScore 0 (some q) ≤ getUrgencyScore 0 (some q') :=
  (bestKey_characterization 0 entriesWindowless).2 "a"
    (by norm_num [bestKeyOf, bestFold, entriesWindowless, beatsLowest,
      getUrgencyScore, quotaNoWindows, quotaHalfUsed, max_def])

/-! ### Reset-time formatting (`usage.ts` `formatReset`,
`codex-select.ts` `formatReset`)

`Date.now()` is the explicit parameter `now`, the `Date` argument is its
epoch-millisecond value.  In the non-negative branch `Math.floor` of a
division by a positive constant and JS `%` coincide with `Nat` division
and modulus on `diffMs.toNat`.  The `Intl.DateTimeFormat` month/day
renderer of the final branch of the `usage.ts` variant is the function
parameter `intl` applied to the date. -/

def formatReset (intl : Int → String) (now date : Int) : String :=
  let diffMs := date - now
  if diffMs < 0 then "now"
  else
    let diffMins := diffMs.toNat / 60000
    if diffMins < 60 then Nat.repr diffMins ++ "m"
    else
      let hours := diffMins / 60
      let mins := diffMins % 60
      if hours < 24 then
        if mins > 0 then Nat.repr hours ++ "h " ++ Nat.repr mins ++ "m"
        else Nat.repr hours ++ "h"
      else
        let days := hours / 24
        if days < 7 then Nat.repr days ++ "d " ++ Nat.repr (hours % 24) ++ "h"
        else intl date

/-- From `codex-select.ts`, `formatReset(resetAt)`: `resetAt` is in epoch
seconds (`new Date(resetAt * 1000)`), and the function has no 7-day
cutoff: every duration of at least 24 hours renders as `"<d>d <h>h"`. -/
def formatResetCodex (now resetAt : Int) : String :=
  let date := resetAt * 1000
  let diffMs := date - now
  if diffMs < 0 then "now"
  else
    let diffMins := diffMs.toNat / 60000
    if diffMins < 60 then Nat.repr diffMins ++ "m"
    else
      let hours := diffMins / 60
      let mins := diffMins % 60
      if hours < 24 then
        if mins > 0 then Nat.repr hours ++ "h " ++ Nat.repr mins ++ "m"
        else Nat.repr hours ++ "h"
      else
        let days := hours / 24
        Nat.repr days ++ "d " ++ Nat.repr (hours % 24) ++ "h"

/-- C7 (amended): the `usage.ts` `formatReset` renders a future reset
`< 60` minutes away as `"<m>m"`, exactly 60 minutes as `"1h"`, 24 hours
up to 7 days as `"<d>d <h>h"`, and 7 or more days via the month/day
calendar renderer; the `codex-select.ts` variant agrees on the shorter
ranges but has no calendar cutoff: it renders every duration of 24 hours
or more as `"<d>d <h>h"`. -/
theorem formatReset_boundaries :
    (∀ (intl : Int → String) (now : Int) (d : Nat), d < 3600000 →
      formatReset intl now (now + d) = Nat.repr (d / 60000) ++ "m") ∧
    (∀ (intl : Int → String) (now : Int),
      formatReset intl now (now + (3600000 : Nat)) = "1h") ∧
    (∀ (intl : Int → String) (now : Int) (d : Nat),
      86400000 ≤ d → d < 604800000 →
      formatReset intl now (now + d) =
        Nat.repr (d / 3600000 / 24) ++ "d " ++
          Nat.repr (d / 3600000 % 24) ++ "h") ∧
    (∀ (intl : Int → String) (now : Int) (d : Nat), 604800000 ≤ d →
      formatReset intl now (now + d) = intl (now + d)) ∧
    (∀ (now : Int) (r : Int), 86400000 ≤ r * 1000 - now →
      formatResetCodex now r =
        Nat.repr ((r * 1000 - now).toNat / 3600000 / 24) ++ "d " ++
          Nat.repr ((r * 1000 - now).toNat / 3600000 % 24) ++ "h") := by
  refine ⟨?_, ?_, ?_, ?_, ?_⟩
  · intro intl now d hd
    simp only [formatReset, add_sub_cancel_left, Int.toNat_natCast]
    rw [if_neg (by omega), if_pos (by omega)]
  · intro intl now
    simp only [formatReset, add_sub_cancel_left, Int.toNat_natCast]
    rw [if_neg (by omega), if_neg (by omega), if_pos (by omega),
      if_neg (by omega)]
    rfl
  · intro intl now d hd1 hd2
    simp only [formatReset, add_sub_cancel_left, Int.toNat_natCast]
    rw [if_neg (by omega), if_neg (by omega), if_neg (by omega),
      if_pos (by omega)]
    have h36 : d / 60000 / 60 = d / 3600000 := by
      rw [Nat.div_div_eq_div_mul]
    rw [h36]
  · intro intl now d hd
    simp only [formatReset, add_sub_cancel_left, Int.toNat_natCast]
    rw [if_neg (by omega), if_neg (by omega), if_neg (by omega),
      if_neg (by omega)]
  · intro now r hd
    simp only [formatResetCodex]
    rw [if_neg (by omega), if_neg (by omega), if_neg (by omega)]
    have h36 : (r * 1000 - now).toNat / 60000 / 60 =
        (r * 1000 - now).toNat / 3600000 := by
      rw [Nat.div_div_eq_div_mul]
    rw [h36]

/-- C7 witness: a reset 59 minutes away renders as `"59m"`. -/
theorem formatReset_boundaries_witness :
    formatReset (fun _ => "Oct 20") 0 (0 + ((3540000 : Nat) : Int)) = "59m" :=
  (formatReset_boundaries.1 (fun _ => "Oct 20") 0 3540000 (by norm_num)).trans
    (by rfl)

/-- C7 counterexample: a reset 8 days away renders in the
`codex-select.ts` variant as the relative string `"8d 0h"`, not in a
month/day calendar form (the function has no calendar branch at all). -/
theorem formatResetCodex_eight_days_counterexample :
    formatResetCodex 0 691200 = "8d 0h" := by
  decide

/-! ### Per-provider usage fetchers (`usage.ts`)

The HTTP outcome of the usage request is an explicit value: either a
response with a status and a parsed JSON body, or a thrown/aborted
network error already converted to its message string (`String(e)`).
`res.ok` is the Fetch-standard `200 ≤ status ≤ 299`.  The profile/email
request never throws (it has its own catch), so its result is a plain
value.  Fields that callers attach after the fetch (`status`,
`selected`, `authKey`) are not part of the snapshot built here. -/

inductive FetchOutcome (β : Type) where
  | response (status : Int) (body : β)
  | thrown (e : String)

def resOk (status : Int) : Bool :=
  decide (200 ≤ status) && decide (status ≤ 299)

/-- A normalized rate window of a `UsageSnapshot`. -/
structure RateWindow where
  label : String
  usedPercent : Rat
  resetDescription : Option String
deriving DecidableEq

structure UsageSnapshot where
  provider : String
  displayName : String
  windows : List RateWindow
  plan : Option String
  error : Option String
deriving DecidableEq

/-- The Anthropic OAuth profile (`fetchClaudeProfile` result; `{}` on
any failure, modelled as both fields absent). -/
structure ClaudeProfile where
  email : Option String
  plan : Option String
deriving DecidableEq

/-- The parsed body of the Anthropic usage endpoint. -/
structure ClaudeUsageData where
  five_hour : Option UsageWindow
  seven_day : Option UsageWindow
  seven_day_sonnet : Option UsageWindow
  seven_day_opus : Option UsageWindow
deriving DecidableEq

def claudeBaseName (authKey : String) : String :=
  if authKey == "anthropic" then "claude" else "claude (" ++ authKey ++ ")"

/-- From `usage.ts`, `fetchClaudeProfileAndUsage`: total in the outcome — every
branch returns a snapshot, nothing is rethrown. -/
def fetchClaudeProfileAndUsage (intl : Int → String) (now : Int)
    (outcome : FetchOutcome ClaudeUsageData) (profile : ClaudeProfile)
    (authKey : String) : UsageSnapshot :=
  match outcome with
  | .thrown e =>
    { provider := "anthropic", displayName := claudeBaseName authKey,
      windows := [], plan := none, error := some e }
  | .response status data =>
    let displayName :=
      match profile.email with
      | some em => "claude (" ++ em ++ ")"
      | none => claudeBaseName authKey
    if !(resOk status) then
      { provider := "anthropic", displayName := displayName,
        windows := [], plan := none,
        error := some ("http " ++ toString status) }
    else
      let w1 : List RateWindow :=
        match data.five_hour with
        | some w =>
          match w.utilization with
          | some u =>
            [{ label := "5h", usedPercent := u,
               resetDescription := w.resets_at.map (formatReset intl now) }]
          | none => []
        | none => []
      let w2 : List RateWindow :=
        match data.seven_day with
        | some w =>
          match w.utilization with
          | some u =>
            [{ label := "week", usedPercent := u,
               resetDescription := w.resets_at.map (formatReset intl now) }]
          | none => []
        | none => []
      let modelWindow := data.seven_day_sonnet <|> data.seven_day_opus
      let w3 : List RateWindow :=
        match modelWindow with
        | some w =>
          match w.utilization with
          | some u =>
            [{ label := match data.seven_day_sonnet with
                 | some _ => "sonnet"
                 | none => "opus",
               usedPercent := u, resetDescription := none }]
          | none => []
        | none => []
      { provider := "anthropic", displayName := displayName,
        windows := w1 ++ w2 ++ w3, plan := profile.plan, error := none }

def codexBaseName (authKey : String) : String :=
  if authKey == "openai-codex" then "codex" else "codex (" ++ authKey ++ ")"

/-- JS `Math.round`. -/
def jsRound (q : Rat) : Int := Int.floor (q + 1 / 2)

/-- From `usage.ts`, `fetchCodexProfileAndUsage`: total in the outcome.
`codexEmail` is the (never-throwing) cached-or-fetched profile email;
`fmtMoney` models `Number.prototype.toFixed(2)` for the credits
balance. -/
def fetchCodexProfileAndUsage (intl : Int → String) (fmtMoney : Rat → String)
    (now : Int) (outcome : FetchOutcome CodexUsageData)
    (codexEmail : Option String) (authKey : String) : UsageSnapshot :=
  match outcome with
  | .thrown e =>
    { provider := "codex", displayName := codexBaseName authKey,
      windows := [], plan := none, error := some e }
  | .response status data =>
    let displayName :=
      match codexEmail with
      | some em => "codex (" ++ em ++ ")"
      | none => codexBaseName authKey
    if status == 401 || status == 403 then
      { provider := "codex", displayName := displayName,
        windows := [], plan := none, error := some "token expired" }
    else if !(resOk status) then
      { provider := "codex", displayName := displayName,
        windows := [], plan := none,
        error := some ("http " ++ toString status) }
    else
      let w1 : List RateWindow :=
        match (match data.rate_limit with
               | some rl => rl.primary_window
               | none => none) with
        | some pw =>
          let resetDate : Option Int :=
            match pw.reset_at with
            | some r => if r ≠ 0 then some (r * 1000) else none
            | none => none
          let windowSeconds : Int :=
            match pw.limit_window_seconds with
            | some s => if s ≠ 0 then s else 10800
            | none => 10800
          let windowHours := jsRound ((windowSeconds : Rat) / 3600)
          [{ label := toString windowHours ++ "h",
             usedPercent := pw.used_percent.getD 0,
             resetDescription := resetDate.map (formatReset intl now) }]
        | none => []
      let w2 : List RateWindow :=
        match (match data.rate_limit with
               | some rl => rl.secondary_window
               | none => none) with
        | some sw =>
          let resetDate : Option Int :=
            match sw.reset_at with
            | some r => if r ≠ 0 then some (r * 1000) else none
            | none => none
          [{ label := "week", usedPercent := sw.used_percent.getD 0,
             resetDescription := resetDate.map (formatReset intl now) }]
        | none => []
      let plan : Option String :=
        match data.credits with
        | some c =>
          match c.balance with
          | some b =>
            if struthy data.plan_type then
              some (data.plan_type.getD "" ++ " ($" ++ fmtMoney b ++ ")")
            else some ("$" ++ fmtMoney b)
          | none => data.plan_type
        | none => data.plan_type
      { provider := "codex", displayName := displayName,
        windows := w1 ++ w2, plan := plan, error := none }

/-- C8: the per-provider usage fetchers never propagate a failure: they
are total functions of the HTTP outcome.  On a non-2xx status they
return a snapshot with an empty window list and error `"http <status>"`
(`"token expired"` for 401/403 on the Codex fetcher), and on any thrown
network failure they return a snapshot carrying the error string. -/
theorem fetchers_error_snapshots :
    (∀ (intl : Int → String) (now status : Int) (data : ClaudeUsageData)
        (profile : ClaudeProfile) (authKey : String),
      resOk status = false →
      (fetchClaudeProfileAndUsage intl now (FetchOutcome.response status data)
          profile authKey).windows = [] ∧
      (fetchClaudeProfileAndUsage intl now (FetchOutcome.response status data)
          profile authKey).error = some ("http " ++ toString status)) ∧
    (∀ (intl : Int → String) (now : Int) (e : String)
        (profile : ClaudeProfile) (authKey : String),
      (fetchClaudeProfileAndUsage intl now (FetchOutcome.thrown e)
          profile authKey).windows = [] ∧
      (fetchClaudeProfileAndUsage intl now (FetchOutcome.thrown e)
          profile authKey).error = some e) ∧
    (∀ (intl : Int → String) (fmtMoney : Rat → String) (now status : Int)
        (data : CodexUsageData) (codexEmail : Option String) (authKey : String),
      status = 401 ∨ status = 403 →
      (fetchCodexProfileAndUsage intl fmtMoney now
          (FetchOutcome.response status data) codexEmail authKey).windows = [] ∧
      (fetchCodexProfileAndUsage intl fmtMoney now
          (FetchOutcome.response status data) codexEmail authKey).error =
        some "token expired") ∧
    (∀ (intl : Int → String) (fmtMoney : Rat → String) (now status : Int)
        (data : CodexUsageData) (codexEmail : Option String) (authKey : String),
      resOk status = false → status ≠ 401 → status ≠ 403 →
      (fetchCodexProfileAndUsage intl fmtMoney now
          (FetchOutcome.response status data) codexEmail authKey).windows = [] ∧
      (fetchCodexProfileAndUsage intl fmtMoney now
          (FetchOutcome.response status data) codexEmail authKey).error =
        some ("http " ++ toString status)) ∧
    (∀ (intl : Int → String) (fmtMoney : Rat → String) (now : Int)
        (e : String) (codexEmail : Option String) (authKey : String),
      (fetchCodexProfileAndUsage intl fmtMoney now (FetchOutcome.thrown e)
          codexEmail authKey).windows = [] ∧
      (fetchCodexProfileAndUsage intl fmtMoney now (FetchOutcome.thrown e)
          codexEmail authKey).error = some e) := by
  refine ⟨?_, ?_, ?_, ?_, ?_⟩
  · intro intl now status data profile authKey h
    simp only [fetchClaudeProfileAndUsage]
    rw [if_pos (by rw [h]; rfl)]
    exact ⟨rfl, rfl⟩
  · intro intl now e profile authKey
    exact ⟨rfl, rfl⟩
  · intro intl fmtMoney now status data codexEmail authKey h
    simp only [fetchCodexProfileAndUsage]
    rw [if_pos (by rcases h with h | h <;> subst h <;> rfl)]
    exact ⟨rfl, rfl⟩
  · intro intl fmtMoney now status data codexEmail authKey h h401 h403
    simp only [fetchCodexProfileAndUsage]
    rw [if_neg (by
      simp only [Bool.or_eq_true, beq_iff_eq]
      push_neg
      exact ⟨h401, h403⟩)]
    rw [if_pos (by rw [h]; rfl)]
    exact ⟨rfl, rfl⟩
  · intro intl fmtMoney now e codexEmail authKey
    exact ⟨rfl, rfl⟩

/-- C8 witness: concrete application at status 500 (Claude fetcher) and
status 403 (Codex fetcher). -/
theorem fetchers_error_snapshots_witness :
    (fetchClaudeProfileAndUsage (fun _ => "") 0
        (FetchOutcome.response 500 ⟨none, none, none, none⟩)
        ⟨none, none⟩ "anthropic").error = some ("http " ++ toString (500 : Int)) ∧
    (fetchCodexProfileAndUsage (fun _ => "") (fun _ => "") 0
        (FetchOutcome.response 403 ⟨none, none, none⟩)
        none "openai-codex").error = some "token expired" :=
  ⟨(fetchers_error_snapshots.1 (fun _ => "") 0 500 ⟨none, none, none, none⟩
      ⟨none, none⟩ "anthropic" (by decide)).2,
   (fetchers_error_snapshots.2.2.1 (fun _ => "") (fun _ => "") 0 403
      ⟨none, none, none⟩ none "openai-codex" (Or.inr rfl)).2⟩

/-! ### One-time key migration (`codex-select.ts` `migrateCodexKeys`,
`loadAuth`) -/

/-- JS `key.replace(/^codex/, "")` generalized: drop `pre` from the
front of `k` when it is a prefix, else return `k` unchanged. -/
def dropPfx (k pre : String) : String :=
  if pre.data.isPrefixOf k.data then String.mk (k.data.drop pre.data.length)
  else k

/-- The suffix computation of the migration loop:
`key === "codex" ? "" : key.replace(/^codex/, "")`. -/
def migSuffix (key : String) : String :=
  if key == "codex" then "" else dropPfx key "codex"

/-- The new key a migrated `codex*` key is stored under:
`` `openai-codex${suffix}` ``. -/
def newKeyOf (key : String) : String := "openai-codex" ++ migSuffix key

/-- The rename loop of `migrateCodexKeys`: for each `codex*` key, read
its value, delete it, and store the value under the renamed key.  The
loop only runs over keys of the object, so the lookup always succeeds;
the `none` branch is unreachable then. -/
def migrateLoop : Obj → List String → Obj
  | result, [] => result
  | result, key :: rest =>
    match jsGet key result with
    | none => migrateLoop result rest
    | some value =>
      migrateLoop (jsSet (newKeyOf key) value (eraseKey key result)) rest

/-- From `codex-select.ts`, `migrateCodexKeys`: no-op when some key already
starts with `"openai-codex"` or no key starts with `"codex"`; otherwise
rename every `codex*` key to `openai-codex*`. -/
def migrateCodexKeys (auth : Obj) : Obj × Bool :=
  let hasOpenaiCodex :=
    (keysOf auth).any (fun k => jsStartsWith k "openai-codex")
  let codexKeys := (keysOf auth).filter (fun k => jsStartsWith k "codex")
  if hasOpenaiCodex || codexKeys.isEmpty then (auth, false)
  else (migrateLoop auth codexKeys, true)

/-- From `codex-select.ts`, `loadAuth`, as a function of the parsed file
content: the store it returns, and whether `saveAuth` was called (it is
called exactly when the migration reports `migrated`). -/
def loadAuth (parsed : Obj) : Obj × Bool := migrateCodexKeys parsed

theorem newKeyOf_eq {k : String} (h : jsStartsWith k "codex" = true) :
    newKeyOf k = "openai-" ++ k := by
  obtain ⟨r, rfl⟩ := jsStartsWith_iff.mp h
  by_cases hk : ("codex" ++ r) == "codex"
  · have : "codex" ++ r = "codex" := beq_iff_eq.mp hk
    have hr : r.data = [] := by
      have := congrArg String.data this
      rw [String.data_append] at this
      have hlen := congrArg List.length this
      rw [List.length_append] at hlen
      exact List.eq_nil_of_length_eq_zero (by omega)
    have hre : r = "" := String.ext hr
    subst hre
    rw [newKeyOf, migSuffix, if_pos hk]
    apply String.ext
    simp [String.data_append]
  · rw [newKeyOf, migSuffix, if_neg hk, dropPfx,
      if_pos (by rw [String.data_append]; exact List.isPrefixOf_iff_prefix.mpr ⟨r.data, rfl⟩)]
    apply String.ext
    rw [String.data_append, String.data_append, String.data_append]
    rw [show (("codex" : String).data ++ r.data).drop ("codex" : String).data.length
        = r.data from List.drop_left _ _]
    rfl

theorem newKeyOf_inj {k₁ k₂ : String}
    (h₁ : jsStartsWith k₁ "codex" = true) (h₂ : jsStartsWith k₂ "codex" = true)
    (h : newKeyOf k₁ = newKeyOf k₂) : k₁ = k₂ := by
  rw [newKeyOf_eq h₁, newKeyOf_eq h₂] at h
  exact append_right_inj h

theorem newKey_not_codex (k : String) :
    jsStartsWith (newKeyOf k) "codex" = false := rfl

theorem newKey_openaiCodex (k : String) :
    jsStartsWith (newKeyOf k) "openai-codex" = true :=
  jsStartsWith_append "openai-codex" (migSuffix k)

theorem jsGet_isSome_of_mem_keys {k : String} {l : Obj}
    (h : k ∈ keysOf l) : ∃ v, jsGet k l = some v := by
  induction l with
  | nil => simp [keysOf] at h
  | cons p rest ih =>
    obtain ⟨k₀, v₀⟩ := p
    by_cases hk : k₀ = k
    · exact ⟨v₀, by rw [jsGet, if_pos hk]⟩
    · rw [keysOf, List.map_cons, List.mem_cons] at h
      rcases h with h | h
      · exact absurd h.symm hk
      · obtain ⟨v, hv⟩ := ih h
        exact ⟨v, by rw [jsGet, if_neg hk]; exact hv⟩

theorem mem_keysOf_of_mem_keysOf_filter {P : String × AuthEntry → Bool}
    {x : String} {l : Obj} (h : x ∈ keysOf (l.filter P)) : x ∈ keysOf l := by
  rw [keysOf] at h ⊢
  obtain ⟨p, hp, rfl⟩ := List.mem_map.mp h
  exact List.mem_map.mpr ⟨p, (List.mem_filter.mp hp).1, rfl⟩

theorem filterMap_congr_mem {α β : Type} {f g : α → Option β} :
    ∀ l : List α, (∀ a ∈ l, f a = g a) → l.filterMap f = l.filterMap g := by
  intro l
  induction l with
  | nil => intro _; rfl
  | cons a l ih =>
    intro h
    rw [List.filterMap_cons, List.filterMap_cons, h a (List.mem_cons_self a l),
      ih (fun b hb => h b (List.mem_cons_of_mem a hb))]

/-- The rename function of the migration: what each processed key
contributes. -/
def migF (auth : Obj) (k : String) : Option (String × AuthEntry) :=
  (jsGet k auth).map (fun v => (newKeyOf k, v))

theorem migrateLoop_eq :
    ∀ (ks : List String) (result : Obj),
      ks.Nodup →
      (∀ k ∈ ks, jsStartsWith k "codex" = true) →
      (∀ k ∈ ks, newKeyOf k ∉ keysOf result) →
      migrateLoop result ks =
        result.filter (fun p => decide (p.1 ∉ ks)) ++ ks.filterMap (migF result) := by
  intro ks
  induction ks with
  | nil =>
    intro result _ _ _
    simp [migrateLoop]
  | cons key rest ih =>
    intro result hnd hcodex hfresh
    rw [List.nodup_cons] at hnd
    cases hget : jsGet key result with
    | none =>
      rw [migrateLoop, hget]
      dsimp only
      have hnotmem : key ∉ keysOf result := by
        intro hmem
        obtain ⟨v, hv⟩ := jsGet_isSome_of_mem_keys hmem
        rw [hget] at hv
        exact Option.noConfusion hv
      rw [ih result hnd.2 (fun k hk => hcodex k (List.mem_cons_of_mem _ hk))
        (fun k hk => hfresh k (List.mem_cons_of_mem _ hk))]
      have hfe : result.filter (fun p => decide (p.1 ∉ rest)) =
          result.filter (fun p => decide (p.1 ∉ key :: rest)) := by
        apply List.filter_congr
        intro p hp
        have hne : p.1 ≠ key := by
          intro hc
          exact hnotmem (hc ▸ List.mem_map.mpr ⟨p, hp, rfl⟩)
        by_cases hr : p.1 ∈ rest <;> simp [hr, hne]
      rw [hfe, List.filterMap_cons, migF, hget]
      rfl
    | some v =>
      rw [migrateLoop, hget]
      dsimp only
      have hset : jsSet (newKeyOf key) v (eraseKey key result) =
          eraseKey key result ++ [(newKeyOf key, v)] := by
        apply jsSet_of_not_mem
        intro hmem
        exact hfresh key (List.mem_cons_self _ _)
          (mem_keysOf_of_mem_keysOf_filter hmem)
      rw [hset]
      have hcodexk := hcodex key (List.mem_cons_self _ _)
      rw [ih (eraseKey key result ++ [(newKeyOf key, v)]) hnd.2
        (fun k hk => hcodex k (List.mem_cons_of_mem _ hk)) ?fresh]
      case fresh =>
        intro k hk hmem
        rw [keysOf_append] at hmem
        rcases List.mem_append.mp hmem with hm | hm
        · exact hfresh k (List.mem_cons_of_mem _ hk)
            (mem_keysOf_of_mem_keysOf_filter hm)
        · have : newKeyOf k = newKeyOf key := by
            rw [keysOf] at hm
            simpa using hm
          have := newKeyOf_inj (hcodex k (List.mem_cons_of_mem _ hk)) hcodexk this
          exact hnd.1 (this ▸ hk)
      have hfe : (eraseKey key result ++ [(newKeyOf key, v)]).filter
          (fun p => decide (p.1 ∉ rest)) =
          result.filter (fun p => decide (p.1 ∉ key :: rest)) ++
            [(newKeyOf key, v)] := by
        rw [List.filter_append]
        have h1 : (eraseKey key result).filter (fun p => decide (p.1 ∉ rest)) =
            result.filter (fun p => decide (p.1 ∉ key :: rest)) := by
          rw [eraseKey, List.filter_filter]
          apply List.filter_congr
          intro p _
          by_cases h1 : p.1 = key <;> by_cases h2 : p.1 ∈ rest <;>
            simp [h1, h2, List.mem_cons]
        have h2 : ([(newKeyOf key, v)] : Obj).filter
            (fun p => decide (p.1 ∉ rest)) = [(newKeyOf key, v)] := by
          rw [List.filter_eq_self]
          intro p hp
          rw [List.mem_singleton] at hp
          subst hp
          simp only [decide_eq_true_eq]
          intro hmem
          have := hcodex (newKeyOf key) (List.mem_cons_of_mem _ hmem)
          rw [newKey_not_codex] at this
          exact Bool.noConfusion this
        rw [h1, h2]
      rw [hfe]
      have hfm : rest.filterMap (migF (eraseKey key result ++ [(newKeyOf key, v)])) =
          rest.filterMap (migF result) := by
        apply filterMap_congr_mem
        intro k hk
        have hkne : k ≠ key := fun hc => hnd.1 (hc ▸ hk)
        rw [migF, migF, jsGet_append]
        rw [jsGet_eraseKey_ne hkne]
        cases hg : jsGet k result with
        | some w => rfl
        | none =>
          have : jsGet k ([(newKeyOf key, v)] : Obj) = none := by
            rw [jsGet, if_neg]
            · rfl
            · intro hc
              have := hcodex k (List.mem_cons_of_mem _ hk)
              rw [← hc, newKey_not_codex] at this
              exact Bool.noConfusion this
          rw [this]
      rw [hfm, List.filterMap_cons, migF, hget]
      rw [List.append_assoc]
      rfl

theorem mem_keysOf_filterMap_migF {x : String} {ks : List String} {auth : Obj}
    (h : x ∈ keysOf (ks.filterMap (migF auth))) :
    ∃ k ∈ ks, x = newKeyOf k := by
  rw [keysOf] at h
  obtain ⟨p, hp, rfl⟩ := List.mem_map.mp h
  obtain ⟨k, hk, hfk⟩ := List.mem_filterMap.mp hp
  rw [migF] at hfk
  cases hg : jsGet k auth with
  | none => rw [hg] at hfk; exact Option.noConfusion hfk
  | some v =>
    rw [hg] at hfk
    simp only [Option.map_some'] at hfk
    obtain rfl := Option.some.inj hfk
    exact ⟨k, hk, rfl⟩

theorem jsGet_filterMap_migF :
    ∀ (ks : List String) (auth : Obj) (k : String),
      ks.Nodup → (∀ k' ∈ ks, jsStartsWith k' "codex" = true) → k ∈ ks →
      jsGet (newKeyOf k) (ks.filterMap (migF auth)) = jsGet k auth := by
  intro ks
  induction ks with
  | nil => intro auth k _ _ h; simp at h
  | cons k₀ rest ih =>
    intro auth k hnd hcodex hk
    rw [List.nodup_cons] at hnd
    rw [List.filterMap_cons]
    by_cases hek : k₀ = k
    · subst hek
      cases hg : jsGet k₀ auth with
      | some v =>
        rw [migF, hg]
        dsimp only [Option.map_some']
        rw [jsGet, if_pos rfl]
      | none =>
        rw [migF, hg]
        dsimp only [Option.map_none']
        apply jsGet_eq_none_of_not_mem
        intro hmem
        obtain ⟨k', hk', heq⟩ := mem_keysOf_filterMap_migF hmem
        have := newKeyOf_inj (hcodex k₀ (List.mem_cons_self _ _))
          (hcodex k' (List.mem_cons_of_mem _ hk')) heq
        exact hnd.1 (this ▸ hk')
    · have hkr : k ∈ rest := by
        rcases List.mem_cons.mp hk with h | h
        · exact absurd h.symm hek
        · exact h
      have hrec := ih auth k hnd.2
        (fun k' hk' => hcodex k' (List.mem_cons_of_mem _ hk')) hkr
      cases hg : jsGet k₀ auth with
      | none =>
        rw [migF, hg]
        dsimp only [Option.map_none']
        exact hrec
      | some v =>
        rw [migF, hg]
        dsimp only [Option.map_some']
        rw [jsGet, if_neg ?_]
        · exact hrec
        · intro hc
          have := newKeyOf_inj (hcodex k₀ (List.mem_cons_self _ _))
            (hcodex k (List.mem_cons.mpr (Or.inr hkr))) hc
          exact hek this

/-- C9: `migrateCodexKeys` is the identity (with `migrated = false`)
whenever a key already starts with `"openai-codex"` or no key starts
with `"codex"`; otherwise it renames every `codex*` key `k` to
`"openai-" ++ k` (i.e. `codex` ↦ `openai-codex`, `codex-<n>` ↦
`openai-codex-<n>`), preserving each entry's value, removing the old
keys, leaving other keys' values untouched, and reports
`migrated = true`.  Applying the migration to its own output changes
nothing, and the loader persists the store only when a migration
occurred: when nothing was persisted the store is returned unchanged. -/
theorem migrateCodexKeys_spec :
    (∀ auth : Obj,
      ((keysOf auth).any (fun k => jsStartsWith k "openai-codex") = true ∨
        (keysOf auth).filter (fun k => jsStartsWith k "codex") = []) →
      migrateCodexKeys auth = (auth, false)) ∧
    (∀ auth : Obj, (keysOf auth).Nodup →
      (keysOf auth).any (fun k => jsStartsWith k "openai-codex") = false →
      (keysOf auth).filter (fun k => jsStartsWith k "codex") ≠ [] →
      (migrateCodexKeys auth).2 = true ∧
        (∀ k v, jsGet k auth = some v → jsStartsWith k "codex" = false →
          jsGet k (migrateCodexKeys auth).1 = some v) ∧
        (∀ k v, jsGet k auth = some v → jsStartsWith k "codex" = true →
          jsGet ("openai-" ++ k) (migrateCodexKeys auth).1 = some v ∧
            jsGet k (migrateCodexKeys auth).1 = none)) ∧
    (∀ auth : Obj, (keysOf auth).Nodup →
      migrateCodexKeys (migrateCodexKeys auth).1 =
        ((migrateCodexKeys auth).1, false)) ∧
    (∀ parsed : Obj, (loadAuth parsed).2 = false →
      (loadAuth parsed).1 = parsed) := by
  have hcond_true : ∀ auth : Obj,
      ((keysOf auth).any (fun k => jsStartsWith k "openai-codex") = true ∨
        (keysOf auth).filter (fun k => jsStartsWith k "codex") = []) →
      migrateCodexKeys auth = (auth, false) := by
    intro auth h
    rw [migrateCodexKeys]
    rw [if_pos ?_]
    rcases h with h | h
    · rw [h]
      rfl
    · rw [h]
      simp
  have hmain : ∀ auth : Obj, (keysOf auth).Nodup →
      (keysOf auth).any (fun k => jsStartsWith k "openai-codex") = false →
      (keysOf auth).filter (fun k => jsStartsWith k "codex") ≠ [] →
      migrateCodexKeys auth =
        (auth.filter (fun p =>
            decide (p.1 ∉ (keysOf auth).filter (fun k => jsStartsWith k "codex"))) ++
          ((keysOf auth).filter (fun k => jsStartsWith k "codex")).filterMap
            (migF auth), true) := by
    intro auth hnd hO hne
    rw [migrateCodexKeys]
    rw [if_neg ?_]
    · rw [migrateLoop_eq _ _ (List.Nodup.filter _ hnd)
        (fun k hk => (List.mem_filter.mp hk).2)
        (fun k hk hmem => absurd
          (show (keysOf auth).any (fun k => jsStartsWith k "openai-codex") = true
            from List.any_eq_true.mpr ⟨newKeyOf k, hmem, newKey_openaiCodex k⟩)
          (by rw [hO]; exact Bool.noConfusion))]
    · rw [hO]
      have : ((keysOf auth).filter (fun k => jsStartsWith k "codex")).isEmpty
          = false := by
        cases hck : (keysOf auth).filter (fun k => jsStartsWith k "codex") with
        | nil => exact absurd hck hne
        | cons a l => rfl
      rw [this]
      exact Bool.noConfusion
  refine ⟨hcond_true, ?_, ?_, ?_⟩
  · intro auth hnd hO hne
    have hm := hmain auth hnd hO hne
    refine ⟨by rw [hm], ?_, ?_⟩
    · intro k v hget hkc
      rw [hm]
      dsimp only
      rw [jsGet_append]
      have hknot : k ∉ (keysOf auth).filter (fun k => jsStartsWith k "codex") := by
        intro hmem
        rw [(List.mem_filter.mp hmem).2] at hkc
        exact Bool.noConfusion hkc
      rw [jsGet_filter_all_pass (fun w => by simp [hknot]), hget]
    · intro k v hget hkc
      have hkmem : k ∈ (keysOf auth).filter (fun k => jsStartsWith k "codex") :=
        List.mem_filter.mpr ⟨mem_keysOf_of_jsGet hget, hkc⟩
      constructor
      · rw [hm]
        dsimp only
        rw [jsGet_append]
        have h1 : jsGet ("openai-" ++ k)
            (auth.filter (fun p =>
              decide (p.1 ∉ (keysOf auth).filter (fun k => jsStartsWith k "codex"))))
            = none := by
          apply jsGet_eq_none_of_not_mem
          intro hmem
          have hmem2 := mem_keysOf_of_mem_keysOf_filter hmem
          exact absurd
            (show (keysOf auth).any (fun k => jsStartsWith k "openai-codex") = true
              from List.any_eq_true.mpr ⟨"openai-" ++ k, hmem2, by
                rw [← newKeyOf_eq hkc]
                exact newKey_openaiCodex k⟩)
            (by rw [hO]; exact Bool.noConfusion)
        rw [h1, ← newKeyOf_eq hkc,
          jsGet_filterMap_migF _ auth k (List.Nodup.filter _ hnd)
            (fun k' hk' => (List.mem_filter.mp hk').2) hkmem, hget]
      · rw [hm]
        dsimp only
        rw [jsGet_append]
        have h1 : jsGet k
            (auth.filter (fun p =>
              decide (p.1 ∉ (keysOf auth).filter (fun k => jsStartsWith k "codex"))))
            = none := by
          apply jsGet_eq_none_of_not_mem
          intro hmem
          rw [keysOf] at hmem
          obtain ⟨p, hp, rfl⟩ := List.mem_map.mp hmem
          have := (List.mem_filter.mp hp).2
          simp only [decide_eq_true_eq] at this
          exact this hkmem
        rw [h1]
        apply jsGet_eq_none_of_not_mem
        intro hmem
        obtain ⟨k', _, heq⟩ := mem_keysOf_filterMap_migF hmem
        rw [heq, newKey_not_codex k'] at hkc
        exact Bool.noConfusion hkc
  · intro auth hnd
    by_cases hc : ((keysOf auth).any (fun k => jsStartsWith k "openai-codex") = true ∨
        (keysOf auth).filter (fun k => jsStartsWith k "codex") = [])
    · have h1 := hcond_true auth hc
      rw [h1]
      exact hcond_true auth hc
    · push_neg at hc
      have hO : (keysOf auth).any (fun k => jsStartsWith k "openai-codex") = false :=
        Bool.eq_false_iff.mpr hc.1
      have hne := hc.2
      have hm := hmain auth hnd hO hne
      cases hck : (keysOf auth).filter (fun k => jsStartsWith k "codex") with
      | nil => exact absurd hck hne
      | cons k₀ ks₀ =>
        have hk₀mem : k₀ ∈ (keysOf auth).filter (fun k => jsStartsWith k "codex") := by
          rw [hck]
          exact List.mem_cons_self _ _
        have hk₀keys : k₀ ∈ keysOf auth := (List.mem_filter.mp hk₀mem).1
        obtain ⟨v₀, hv₀⟩ := jsGet_isSome_of_mem_keys hk₀keys
        have hpair : (newKeyOf k₀, v₀) ∈
            ((keysOf auth).filter (fun k => jsStartsWith k "codex")).filterMap
              (migF auth) :=
          List.mem_filterMap.mpr ⟨k₀, hk₀mem, by rw [migF, hv₀]; rfl⟩
        have hkeymem : newKeyOf k₀ ∈ keysOf (migrateCodexKeys auth).1 := by
          rw [hm]
          dsimp only
          rw [keysOf_append]
          exact List.mem_append.mpr (Or.inr (List.mem_map.mpr ⟨_, hpair, rfl⟩))
        exact hcond_true _ (Or.inl
          (show (keysOf (migrateCodexKeys auth).1).any
              (fun k => jsStartsWith k "openai-codex") = true
            from List.any_eq_true.mpr ⟨newKeyOf k₀, hkeymem, newKey_openaiCodex k₀⟩))
  · intro parsed h
    rw [loadAuth] at h ⊢
    rw [migrateCodexKeys] at h ⊢
    by_cases hc : ((keysOf parsed).any (fun k => jsStartsWith k "openai-codex") ||
        ((keysOf parsed).filter (fun k => jsStartsWith k "codex")).isEmpty) = true
    · rw [if_pos hc]
    · rw [if_neg hc] at h
      exact absurd h (by simp)

/-! ### UUID-based dedup of the picker lists
(`claude-select.ts` / `codex-select.ts` `uniqueEntries`)

The `filter` callback closes over a `seenUUIDs` set; modelled as an
accumulator threaded through an explicit recursion.  `profileMap.get`
yielding `undefined` (missing key) or a stored `null` both collapse to
`none`. -/

structure AccountInfo where
  email : Option String
  full_name : Option String
  uuid : Option String
deriving DecidableEq

structure ProfileInfo where
  account : Option AccountInfo
deriving DecidableEq

/-- The chain `profileMap.get(key)?.account?.uuid`. -/
def uuidOf (pm : String → Option ProfileInfo) (k : String) : Option String :=
  match pm k with
  | some p =>
    match p.account with
    | some a => a.uuid
    | none => none
  | none => none

/-- The dedup filter with its `seenUUIDs` accumulator: keep entries with
no UUID; keep an entry with a UUID only the first time that UUID is
seen. -/
def uniqueEntriesAux (pm : String → Option ProfileInfo) :
    List String → List (String × AuthEntry) → List (String × AuthEntry)
  | _, [] => []
  | seen, (k, e) :: rest =>
    match uuidOf pm k with
    | none => (k, e) :: uniqueEntriesAux pm seen rest
    | some u =>
      if u ∈ seen then uniqueEntriesAux pm seen rest
      else (k, e) :: uniqueEntriesAux pm (u :: seen) rest

/-- The `uniqueEntries` filter of `claude-select.ts` / `codex-select.ts`
(the two files contain the same filter), starting from an empty
`seenUUIDs` set. -/
def uniqueEntries (pm : String → Option ProfileInfo)
    (entries : List (String × AuthEntry)) : List (String × AuthEntry) :=
  uniqueEntriesAux pm [] entries

theorem uniqueEntriesAux_sublist (pm : String → Option ProfileInfo) :
    ∀ (l : List (String × AuthEntry)) (seen : List String),
      (uniqueEntriesAux pm seen l).Sublist l := by
  intro l
  induction l with
  | nil => intro seen; exact List.Sublist.refl []
  | cons p rest ih =>
    intro seen
    obtain ⟨k, e⟩ := p
    rw [uniqueEntriesAux]
    cases uuidOf pm k with
    | none =>
      dsimp only
      exact List.Sublist.cons₂ _ (ih seen)
    | some u =>
      dsimp only
      by_cases hu : u ∈ seen
      · rw [if_pos hu]
        exact List.Sublist.cons _ (ih seen)
      · rw [if_neg hu]
        exact List.Sublist.cons₂ _ (ih (u :: seen))

theorem uniqueEntriesAux_countP_none (pm : String → Option ProfileInfo) :
    ∀ (l : List (String × AuthEntry)) (seen : List String),
      (uniqueEntriesAux pm seen l).countP (fun p => (uuidOf pm p.1).isNone) =
        l.countP (fun p => (uuidOf pm p.1).isNone) := by
  intro l
  induction l with
  | nil => intro seen; rfl
  | cons p rest ih =>
    intro seen
    obtain ⟨k, e⟩ := p
    rw [uniqueEntriesAux]
    cases hu : uuidOf pm k with
    | none =>
      dsimp only
      rw [List.countP_cons_of_pos _ _ (by simp [hu]),
        List.countP_cons_of_pos _ _ (by simp [hu]), ih seen]
    | some u =>
      dsimp only
      by_cases hs : u ∈ seen
      · rw [if_pos hs, List.countP_cons_of_neg _ _ (by simp [hu]), ih seen]
      · rw [if_neg hs, List.countP_cons_of_neg _ _ (by simp [hu]),
          List.countP_cons_of_neg _ _ (by simp [hu]), ih (u :: seen)]

theorem uniqueEntriesAux_countP_seen (pm : String → Option ProfileInfo) :
    ∀ (l : List (String × AuthEntry)) (seen : List String) (u : String),
      u ∈ seen →
      (uniqueEntriesAux pm seen l).countP (fun p => uuidOf pm p.1 == some u) = 0 := by
  intro l
  induction l with
  | nil => intro seen u _; rfl
  | cons p rest ih =>
    intro seen u hu
    obtain ⟨k, e⟩ := p
    rw [uniqueEntriesAux]
    cases hk : uuidOf pm k with
    | none =>
      dsimp only
      rw [List.countP_cons_of_neg _ _ (by simp [hk]), ih seen u hu]
    | some v =>
      dsimp only
      by_cases hs : v ∈ seen
      · rw [if_pos hs, ih seen u hu]
      · have hvu : v ≠ u := fun hc => hs (hc ▸ hu)
        rw [if_neg hs, List.countP_cons_of_neg _ _ (by simp [hk, hvu]),
          ih (v :: seen) u (List.mem_cons_of_mem v hu)]

theorem uniqueEntriesAux_first (pm : String → Option ProfileInfo) :
    ∀ (l : List (String × AuthEntry)) (seen : List String) (u : String),
      u ∉ seen →
      0 < l.countP (fun p => uuidOf pm p.1 == some u) →
      (uniqueEntriesAux pm seen l).countP (fun p => uuidOf pm p.1 == some u) = 1 ∧
        (uniqueEntriesAux pm seen l).find? (fun p => uuidOf pm p.1 == some u) =
          l.find? (fun p => uuidOf pm p.1 == some u) := by
  intro l
  induction l with
  | nil => intro seen u _ hcnt; simp at hcnt
  | cons p rest ih =>
    intro seen u hu hcnt
    obtain ⟨k, e⟩ := p
    rw [uniqueEntriesAux]
    cases hk : uuidOf pm k with
    | none =>
      dsimp only
      have hpred : ¬ ((fun p : String × AuthEntry =>
          uuidOf pm p.1 == some u) (k, e) = true) := by simp [hk]
      rw [List.countP_cons_of_neg
        (fun p : String × AuthEntry => uuidOf pm p.1 == some u) _ hpred] at hcnt
      obtain ⟨h1, h2⟩ := ih seen u hu hcnt
      refine ⟨by rw [List.countP_cons_of_neg
        (fun p : String × AuthEntry => uuidOf pm p.1 == some u) _ hpred, h1], ?_⟩
      rw [@List.find?_cons_of_neg _
          (fun p : String × AuthEntry => uuidOf pm p.1 == some u) _ _ hpred,
        @List.find?_cons_of_neg _
          (fun p : String × AuthEntry => uuidOf pm p.1 == some u) _ _ hpred, h2]
    | some v =>
      dsimp only
      by_cases hvu : v = u
      · subst hvu
        have hpred : ((fun p : String × AuthEntry =>
            uuidOf pm p.1 == some v) (k, e)) = true := by simp [hk]
        rw [if_neg hu]
        refine ⟨?_, ?_⟩
        · rw [List.countP_cons_of_pos
            (fun p : String × AuthEntry => uuidOf pm p.1 == some v) _ hpred,
            uniqueEntriesAux_countP_seen pm rest (v :: seen) v
              (List.mem_cons_self v seen)]
        · rw [@List.find?_cons_of_pos _
              (fun p : String × AuthEntry => uuidOf pm p.1 == some v) _ _ hpred,
            @List.find?_cons_of_pos _
              (fun p : String × AuthEntry => uuidOf pm p.1 == some v) _ _ hpred]
      · have hpred : ¬ ((fun p : String × AuthEntry =>
            uuidOf pm p.1 == some u) (k, e) = true) := by simp [hk, hvu]
        rw [List.countP_cons_of_neg
          (fun p : String × AuthEntry => uuidOf pm p.1 == some u) _ hpred] at hcnt
        by_cases hs : v ∈ seen
        · rw [if_pos hs]
          obtain ⟨h1, h2⟩ := ih seen u hu hcnt
          exact ⟨h1, by rw [@List.find?_cons_of_neg _
            (fun p : String × AuthEntry => uuidOf pm p.1 == some u) _ _ hpred, h2]⟩
        · rw [if_neg hs]
          have hu2 : u ∉ v :: seen := by
            rw [List.mem_cons]
            push_neg
            exact ⟨fun hc => hvu hc.symm, hu⟩
          obtain ⟨h1, h2⟩ := ih (v :: seen) u hu2 hcnt
          refine ⟨by rw [List.countP_cons_of_neg
            (fun p : String × AuthEntry => uuidOf pm p.1 == some u) _ hpred, h1], ?_⟩
          rw [@List.find?_cons_of_neg _
              (fun p : String × AuthEntry => uuidOf pm p.1 == some u) _ _ hpred,
            @List.find?_cons_of_neg _
              (fun p : String × AuthEntry => uuidOf pm p.1 == some u) _ _ hpred, h2]

/-- C10: the picker lists (both `claude-select.ts` and
`codex-select.ts`) are deduplicated by the profile UUID: the result is a
subsequence of the store enumeration (order preserved), every entry
whose profile lacks a UUID (or whose profile fetch failed) is kept, and
for every UUID that occurs, exactly one entry carrying it remains —
the first such entry in store enumeration order. -/
theorem uniqueEntries_dedup (pm : String → Option ProfileInfo)
    (entries : List (String × AuthEntry)) :
    (uniqueEntries pm entries).Sublist entries ∧
      (uniqueEntries pm entries).countP (fun p => (uuidOf pm p.1).isNone) =
        entries.countP (fun p => (uuidOf pm p.1).isNone) ∧
      ∀ u : String,
        0 < entries.countP (fun p => uuidOf pm p.1 == some u) →
        (uniqueEntries pm entries).countP (fun p => uuidOf pm p.1 == some u) = 1 ∧
          (uniqueEntries pm entries).find? (fun p => uuidOf pm p.1 == some u) =
            entries.find? (fun p => uuidOf pm p.1 == some u) :=
  ⟨uniqueEntriesAux_sublist pm entries [],
   uniqueEntriesAux_countP_none pm entries [],
   fun u hcnt =>
     uniqueEntriesAux_first pm entries [] u (List.not_mem_nil u) hcnt⟩

/-- A profile map for concrete evaluation: keys `a` and `b` share the
UUID `u`, key `c` has no profile. -/
def pmSample (k : String) : Option ProfileInfo :=
  if k = "a" ∨ k = "b" then some ⟨some ⟨none, none, some "u"⟩⟩ else none

def storeUuid : List (String × AuthEntry) :=
  [("a", sampleEntry), ("b", sampleEntry2), ("c", sampleEntry3)]

/-- C10 witness: concrete application — exactly one entry with UUID `u`
survives, and it is the first one (`a`). -/
theorem uniqueEntries_dedup_witness :
    (uniqueEntries pmSample storeUuid).countP
        (fun p => uuidOf pmSample p.1 == some "u") = 1 ∧
      (uniqueEntries pmSample storeUuid).find?
          (fun p => uuidOf pmSample p.1 == some "u") =
        storeUuid.find? (fun p => uuidOf pmSample p.1 == some "u") :=
  (uniqueEntries_dedup pmSample storeUuid).2.2 "u" (by decide)

/-- The store used for concrete evaluation of the migration: two legacy
`codex*` keys and one unrelated key. -/
def storeCodexMig : Obj :=
  [("codex", sampleEntry), ("codex-1", sampleEntry2), ("zai", sampleEntry3)]

/-- C9 witness: concrete application — `codex-1` is renamed to
`openai-codex-1` (that is, `"openai-" ++ "codex-1"`) keeping its
value. -/
theorem migrateCodexKeys_spec_witness :
    jsGet ("openai-" ++ "codex-1") (migrateCodexKeys storeCodexMig).1 =
      some sampleEntry2 :=
  ((migrateCodexKeys_spec.2.1 storeCodexMig (by decide) (by decide)
    (by decide)).2.2 "codex-1" sampleEntry2 (by decide) (by decide)).1

end PiExt
